import Mathlib

/-!
# Verification of the cubby replicated key-value store

Shallow embedding of the core of the `cubby` crate (an LWW CRDT key-value
store synchronized by bitmap diffs) and proofs about it.

Embedding conventions:
* `u64` values (HLCs) are `Nat`s; arithmetic that can wrap in Rust carries an
  explicit `% 2^64`.  We write the types of HLCs, peer ids, keys and values
  as plain `Nat` (type aliases interfere with arithmetic automation); doc
  comments state the role of each field.
* `PeerId` is an opaque totally ordered identifier in the source (a byte
  string with lexicographic order); we model it as `Nat`, keeping equality
  and the total order used as LWW tiebreaker.
* The store is generic over key and value types in the source; we
  instantiate both with `Nat` (keys are totally ordered, as `BTreeMap`
  requires).
* `RoaringTreemap` (a set of `u64`s iterated in ascending order) is
  `Finset Nat`, iterated via the kernel-reducible ascending enumeration
  `asc_list`.
* `BTreeMap`/`HashMap` fields are total functions into `Option`, together
  with a `Finset` of present keys where the code iterates over the map.
* `.expect(..)` calls on invariant-backed lookups (which panic only on
  states the source considers unreachable) evaluate to a default value.
-/

namespace Cubby

/-- 2^64, the modulus of `u64` arithmetic. -/
def U64 : Nat := 18446744073709551616

/-- 2^16, the size of the logical-counter field of an HLC. -/
def M16 : Nat := 65536

/-- `Hlc::l`: the physical-time field, `self.0 & 0xFFFF_FFFF_FFFF_0000`. -/
def Hlc.l (h : Nat) : Nat := h / M16 * M16

/-- `Hlc::c`: the logical counter, `(self.0 & 0xFFFF) as u16`. -/
def Hlc.c (h : Nat) : Nat := h % M16

/-- `Hlc::new(l, c)`: pack the two fields, masking each so neither bleeds
into the other (`l & 0xFFFF_FFFF_FFFF_0000 | c & 0xFFFF`). -/
def Hlc.new (l c : Nat) : Nat := (l % U64) / M16 * M16 + c % M16

/-- `Hlc::inc`: `Hlc(self.0 + 1)` in `u64` arithmetic. -/
def Hlc.inc (h : Nat) : Nat := (h + 1) % U64

/-- `Hlc::next_inner(pt)`: if sampled physical time exceeds the stored
physical time, restart the counter at the new physical time; otherwise
increment numerically.  (`Hlc::next` calls this with `pt` sampled by
`makept`, which masks the low 16 bits; `pt` is a parameter here.) -/
def Hlc.next_inner (h pt : Nat) : Nat :=
  let l := max (Hlc.l h) pt
  if l = Hlc.l h then (h + 1) % U64 else Hlc.new l 0

/-- An entry of the store: `{ value, author, hlc }`.  `value : Nat` is the
stored value, `author : Nat` a peer id, `hlc : Nat` the write's HLC. -/
@[ext]
structure Entry where
  value : Nat
  author : Nat
  hlc : Nat
deriving DecidableEq

/-- Per-peer state: `index` is the bitmap of live HLCs authored by the peer,
`keys` the map from HLC back to key, `bookmark` the greatest observed HLC. -/
@[ext]
structure PeerState where
  index : Finset Nat
  keys : Nat → Option Nat
  bookmark : Nat

/-- `PeerState::default()`: empty bitmap, empty map, zero bookmark. -/
instance : Inhabited PeerState := ⟨⟨∅, fun _ => none, 0⟩⟩

/-- The in-memory store `MemStore`.  `entries` is the `BTreeMap` from key to
entry; `peers` is the `HashMap` from peer id to `PeerState`, with `peerSet`
its set of present keys (`peers` is only meaningful on `peerSet`). -/
@[ext]
structure MemStore where
  local_id : Nat
  entries : Nat → Option Entry
  peerSet : Finset Nat
  peers : Nat → PeerState

/-- A single insert of a diff: `{ key, value, hlc }`. -/
structure Insert where
  key : Nat
  value : Nat
  hlc : Nat
deriving DecidableEq

/-- `DiffRequestPeerState`: the requester's live bitmap and bookmark for one
peer. -/
structure DiffRequestPeerState where
  index : Finset Nat
  bookmark : Nat

/-- `DiffRequest`: per-peer requester summaries, one per peer the requester
knows (modelled as the `HashMap`'s lookup function). -/
abbrev DiffRequest := Nat → Option DiffRequestPeerState

/-- `DiffPeerState`: one peer block of a diff. -/
structure DiffPeerState where
  inserts : List Insert
  deletes : Finset Nat
  bookmark : Nat

/-- `Diff`: the per-peer blocks of a diff.  The source stores them in a
`HashMap`; we model the map as its (arbitrarily ordered, duplicate-free)
iteration sequence, which both integration loops traverse. -/
abbrev Diff := List (Nat × DiffPeerState)

/-- Ascending enumeration of a finite set of `u64` values: the iteration
order of a `RoaringTreemap` (and of `BTreeMap`/`BTreeSet` keys).  Written as
a bounded filter so that it evaluates by kernel reduction. -/
def asc_list (s : Finset Nat) : List Nat :=
  (List.range (s.sup id + 1)).filter fun h => decide (h ∈ s)

/-- `MemStore::new(id)`: empty store that knows only its own peer state. -/
def MemStore.new (id : Nat) : MemStore :=
  { local_id := id
    entries := fun _ => none
    peerSet := {id}
    peers := fun _ => default }

/-- Private helper of `integrate_peer_inserts`: the LWW comparison deciding
whether an incoming insert `(hlc, author)` replaces the existing entry
(`old.hlc < insert.hlc || old.hlc == insert.hlc && old.author < id`). -/
def wins (old : Entry) (hlc author : Nat) : Prop :=
  old.hlc < hlc ∨ (old.hlc = hlc ∧ old.author < author)

instance (old : Entry) (hlc author : Nat) : Decidable (wins old hlc author) := by
  unfold wins; infer_instance

/-- `MemStore::insert_with_hlc`: the private insert path.  Allocates the HLC
from the bookmark (sampling physical time `pt`) unless a transaction HLC is
supplied, updates the local peer state, installs the entry, and removes the
overwritten entry's HLC from its author's index (dropping its `keys` record
only for remote authors).  Returns the displaced value. -/
def MemStore.insert_with_hlc (s : MemStore) (key value : Nat)
    (txn_hlc : Option Nat) (pt : Nat) : MemStore × Option Nat :=
  -- update peer state (`mut_local_peer_state`: the local state always exists)
  let ps := s.peers s.local_id
  let hlc := match txn_hlc with
    | some h => h
    | none => Hlc.next_inner ps.bookmark pt
  let ps1 : PeerState :=
    { index := Insert.insert hlc ps.index
      keys := Function.update ps.keys hlc (some key)
      bookmark := hlc }
  let s1 : MemStore := { s with peers := Function.update s.peers s.local_id ps1 }
  -- update kv entries
  let entry : Entry := { value := value, author := s.local_id, hlc := hlc }
  match s1.entries key with
  | none => ({ s1 with entries := Function.update s1.entries key (some entry) }, none)
  | some old =>
    let s2 : MemStore := { s1 with entries := Function.update s1.entries key (some entry) }
    -- update peer state for the overwritten entry
    -- (source: `.expect("invalid peer state accounting")`)
    let ops := s2.peers old.author
    let ops1 : PeerState :=
      { ops with index := ops.index.erase old.hlc
                 keys := if old.author = s.local_id then ops.keys
                         else Function.update ops.keys old.hlc none }
    ({ s2 with peers := Function.update s2.peers old.author ops1 }, some old.value)

/-- `MemStore::insert`: public insert, allocating the HLC from the clock. -/
def MemStore.insert (s : MemStore) (key value pt : Nat) : MemStore × Option Nat :=
  s.insert_with_hlc key value none pt

/-- `MemStore::remove`: delete the entry, removing its HLC from the author's
index and `keys` map; the bookmark is untouched. -/
def MemStore.remove (s : MemStore) (key : Nat) : MemStore × Option Nat :=
  match s.entries key with
  | none => (s, none)
  | some old =>
    let s1 : MemStore := { s with entries := Function.update s.entries key none }
    -- source: `.expect("invalid peer state accounting")`
    let ps := s1.peers old.author
    let ps1 : PeerState :=
      { ps with index := ps.index.erase old.hlc
                keys := Function.update ps.keys old.hlc none }
    ({ s1 with peers := Function.update s1.peers old.author ps1 }, some old.value)

/-- `MemStore::get`. -/
def MemStore.get (s : MemStore) (key : Nat) : Option Nat :=
  (s.entries key).map Entry.value

/-- `MemStore::request_diff`: one `DiffRequestPeerState` per known peer. -/
def MemStore.request_diff (s : MemStore) : DiffRequest := fun p =>
  if p ∈ s.peerSet then
    some { index := (s.peers p).index, bookmark := (s.peers p).bookmark }
  else none

/-- Materialization of inserts in `build_diff`: iterate the bitmap in
ascending order, looking up each HLC's key (`.expect("missing key for
HLC")`) and the key's current value (`.expect("missing value for key")`). -/
def MemStore.materialize (s : MemStore) (ps : PeerState) (hlcs : Finset Nat) :
    List Insert :=
  (asc_list hlcs).map fun h =>
    { key := (ps.keys h).getD 0
      value := (s.get ((ps.keys h).getD 0)).getD 0
      hlc := h }

/-- The peer block `build_diff` computes for peer `p` (before deciding
whether to include it in the diff). -/
def MemStore.build_block (s : MemStore) (request : DiffRequest) (p : Nat) :
    DiffPeerState :=
  let ps := s.peers p
  match request p with
  | some req =>
    -- inserts: all e in (local - remote) with e above the remote bookmark
    -- (`remove_range(0..=request.bookmark)`)
    let insert_hlcs := (ps.index \ req.index).filter fun h => ¬ h ≤ req.bookmark
    -- deletes: all e in (remote - local) below the local bookmark
    -- (`remove_range(bookmark..)`)
    let deletes := (req.index \ ps.index).filter fun h => h < ps.bookmark
    { inserts := s.materialize ps insert_hlcs
      deletes := deletes
      bookmark := ps.bookmark }
  | none =>
    -- inserts: all e in local
    { inserts := s.materialize ps ps.index
      deletes := ∅
      bookmark := ps.bookmark }

/-- `MemStore::build_diff`: one block per known peer, kept when it has
inserts or its delete set is empty. -/
def MemStore.build_diff (s : MemStore) (request : DiffRequest) : Diff :=
  ((asc_list s.peerSet).map fun p => (p, s.build_block request p)).filter
    fun pd => decide (pd.2.inserts ≠ [] ∨ pd.2.deletes = ∅)

/-- One deleted HLC of `integrate_diff`'s delete phase: if the peer's `keys`
map still holds a key for it, drop the `keys` record and the key's entry
(the state is the pair of the peer's `keys` map and the entries map). -/
def del_step (st : (Nat → Option Nat) × (Nat → Option Entry)) (h : Nat) :
    (Nat → Option Nat) × (Nat → Option Entry) :=
  match st.1 h with
  | some k => (Function.update st.1 h none, Function.update st.2 k none)
  | none => st

/-- First phase of `integrate_diff` for one peer block: subtract the block's
deletes from the peer's index and, for each deleted HLC still present in
`keys`, drop the key's entry and the `keys` record.  Peers the integrator
does not know are skipped. -/
def MemStore.apply_peer_deletes (s : MemStore) (pd : Nat × DiffPeerState) :
    MemStore :=
  if pd.1 ∈ s.peerSet then
    let peer := s.peers pd.1
    let st := (asc_list pd.2.deletes).foldl del_step (peer.keys, s.entries)
    { s with
      entries := st.2
      peers := Function.update s.peers pd.1
        { peer with index := peer.index \ pd.2.deletes, keys := st.1 } }
  else s

/-- Install an incoming insert from author `p`: write the entry and record
the HLC in `p`'s index and `keys` map (the `did_insert` branch). -/
def MemStore.lww_install (st : MemStore) (p : Nat) (ins : Insert) : MemStore :=
  let e : Entry := { value := ins.value, author := p, hlc := ins.hlc }
  let st1 : MemStore := { st with entries := Function.update st.entries ins.key (some e) }
  let ps := st1.peers p
  let ps1 : PeerState :=
    { ps with index := Insert.insert ins.hlc ps.index,
              keys := Function.update ps.keys ins.hlc (some ins.key) }
  { st1 with peers := Function.update st1.peers p ps1 }

/-- One incoming insert of `integrate_peer_inserts`: install into a vacant
key, or replace the existing entry iff the incoming `(hlc, author)` wins the
LWW comparison.  The source also records the displaced `(author, hlc)` in an
`overwritten` map that it never applies; the map has no effect on state. -/
def MemStore.lww_step (st : MemStore) (p : Nat) (ins : Insert) : MemStore :=
  match st.entries ins.key with
  | none => st.lww_install p ins
  | some old => if wins old ins.hlc p then st.lww_install p ins else st

/-- `MemStore::integrate_peer_inserts`: ensure the peer state exists
(`entry(..).or_default()`), apply the block's inserts in order, then raise
the bookmark to the block's bookmark. -/
def MemStore.integrate_peer_inserts (s : MemStore) (p : Nat)
    (dp : DiffPeerState) : MemStore :=
  let s0 : MemStore :=
    if p ∈ s.peerSet then s
    else { s with peerSet := Insert.insert p s.peerSet,
                  peers := Function.update s.peers p default }
  let s1 := dp.inserts.foldl (fun st ins => st.lww_step p ins) s0
  let ps := s1.peers p
  let ps1 : PeerState := { ps with bookmark := max ps.bookmark dp.bookmark }
  { s1 with peers := Function.update s1.peers p ps1 }

/-- `MemStore::integrate_diff`: apply every block's deletes, then every
block's inserts. -/
def MemStore.integrate_diff (s : MemStore) (diff : Diff) : MemStore :=
  let s1 := diff.foldl MemStore.apply_peer_deletes s
  diff.foldl (fun st pd => st.integrate_peer_inserts pd.1 pd.2) s1

/-- One direction of the state-sync protocol, as the crate's examples run
it: the integrator requests, the responder builds, the integrator
integrates. -/
def sync_once (a b : MemStore) : MemStore :=
  a.integrate_diff (b.build_diff a.request_diff)

/-- A local operation on a replica: a public insert (with the physical time
sampled for it) or a remove. -/
inductive LocalOp where
  | ins (key value pt : Nat)
  | del (key : Nat)
deriving DecidableEq

/-- Apply one local operation. -/
def MemStore.apply_local (s : MemStore) : LocalOp → MemStore
  | .ins k v pt => (s.insert k v pt).1
  | .del k => (s.remove k).1

/-- Apply a sequence of local operations. -/
def MemStore.apply_locals (s : MemStore) (ops : List LocalOp) : MemStore :=
  ops.foldl MemStore.apply_local s

/-- Validity of a run of local operations, tracking the local bookmark:
every sampled physical time is 16-bit aligned (as `makept` guarantees) and
in `u64` range, and no increment wraps around `u64` (true of any run whose
clock stays below the year-586000 overflow of a microsecond `u64` clock). -/
def local_run_okb : Nat → List LocalOp → Bool
  | _, [] => true
  | b, .ins _ _ pt :: rest =>
    decide (pt % M16 = 0) && decide (pt < U64) &&
      (decide (Hlc.l b < pt) || decide (b + 1 < U64)) &&
      local_run_okb (Hlc.next_inner b pt) rest
  | b, .del _ :: rest => local_run_okb b rest

/-- `MemStoreTxn`: staged inserts (a `BTreeMap`, modelled as a key-sorted
association list) and staged deletes (a `BTreeSet`). -/
structure MemStoreTxn where
  inserts : List (Nat × Nat)
  deletes : Finset Nat

/-- `BTreeMap::insert` on a key-sorted association list: replace the value
at an existing key, or splice the pair in at its ordered position. -/
def btree_insert : List (Nat × Nat) → Nat → Nat → List (Nat × Nat)
  | [], k, v => [(k, v)]
  | (k0, v0) :: rest, k, v =>
    if k < k0 then (k, v) :: (k0, v0) :: rest
    else if k = k0 then (k, v) :: rest
    else (k0, v0) :: btree_insert rest k v

/-- `BTreeMap::remove`: drop the pair with the given key, if present. -/
def btree_remove (l : List (Nat × Nat)) (k : Nat) : List (Nat × Nat) :=
  l.filter fun kv => decide (kv.1 ≠ k)

/-- `MemStoreTxn::insert`: stage a key-value pair. -/
def MemStoreTxn.insert (t : MemStoreTxn) (k v : Nat) : MemStoreTxn :=
  { t with inserts := btree_insert t.inserts k v }

/-- `MemStoreTxn::remove`: unstage any staged insert of the key, and stage
the key for deletion. -/
def MemStoreTxn.remove (t : MemStoreTxn) (k : Nat) : MemStoreTxn :=
  { inserts := btree_remove t.inserts k, deletes := Insert.insert k t.deletes }

/-- One step of `commit`'s insert loop: write one staged pair with the
accumulated transaction HLC and increment it. -/
def commit_ins_step (pt : Nat) (acc : MemStore × Nat) (kv : Nat × Nat) :
    MemStore × Nat :=
  ((acc.1.insert_with_hlc kv.1 kv.2 (some acc.2) pt).1, Hlc.inc acc.2)

/-- One step of `commit`'s delete loop. -/
def commit_del_step (st : MemStore) (k : Nat) : MemStore :=
  (st.remove k).1

/-- `MemStoreTxn::commit`: allocate `h0 = bookmark.next()`, write the staged
inserts (in `BTreeMap` iteration order) with the consecutive HLCs `h0`,
`h0.inc()`, …, then apply the staged deletes. -/
def MemStoreTxn.commit (t : MemStoreTxn) (s : MemStore) (pt : Nat) : MemStore :=
  let h0 := Hlc.next_inner (s.peers s.local_id).bookmark pt
  let si := (t.inserts.foldl (commit_ins_step pt) (s, h0)).1
  (asc_list t.deletes).foldl commit_del_step si

/-- A staging operation on an open transaction. -/
inductive TxnOp where
  | ins (k v : Nat)
  | del (k : Nat)
deriving DecidableEq

/-- Apply one staging operation to a transaction. -/
def apply_txn_op (t : MemStoreTxn) : TxnOp → MemStoreTxn
  | .ins k v => t.insert k v
  | .del k => t.remove k

/-- The transaction built by a sequence of staging operations on
`MemStore::begin()`'s empty transaction. -/
def build_txn (ops : List TxnOp) : MemStoreTxn :=
  ops.foldl apply_txn_op { inserts := [], deletes := ∅ }

/-- C5, spec side: the insert HLCs for a known requester peer, as §4.4.2
words them: HLCs the responder holds live that the requester does not list,
restricted to those above the requester's bookmark. -/
def spec_insert_hlcs (s_idx r_idx : Finset Nat) (r_bk : Nat) : Finset Nat :=
  s_idx.filter fun h => h ∉ r_idx ∧ r_bk < h

/-- C5, spec side: the delete HLCs for a known requester peer: HLCs the
requester holds live that the responder does not, restricted to those below
the responder's bookmark. -/
def spec_delete_hlcs (s_idx r_idx : Finset Nat) (s_bk : Nat) : Finset Nat :=
  r_idx.filter fun h => h ∉ s_idx ∧ h < s_bk

/-- Well-formedness of one diff block: no insert's HLC is also listed in the
block's delete set (diffs built by `build_diff` always satisfy this, since
inserts come from `local \ remote` and deletes from `remote \ local`). -/
def block_wf (dp : DiffPeerState) : Prop :=
  ∀ ins ∈ dp.inserts, ins.hlc ∉ dp.deletes

/-- Well-formedness of a diff: block peer ids are duplicate-free (they are
the keys of a `HashMap`), and every block is well-formed. -/
def diff_wf (d : Diff) : Prop :=
  (d.map Prod.fst).Nodup ∧ ∀ pd ∈ d, block_wf pd.2

instance (dp : DiffPeerState) : Decidable (block_wf dp) := by
  unfold block_wf; infer_instance

instance (d : Diff) : Decidable (diff_wf d) := by
  unfold diff_wf block_wf; infer_instance

/-- The integrator holds no trace of the block's deleted HLCs for peer `p`:
neither a `keys` record nor an index bit.  This is the state every block
leaves behind after one integration. -/
def peer_clean (st : MemStore) (p : Nat) (dp : DiffPeerState) : Prop :=
  ∀ h ∈ dp.deletes, (st.peers p).keys h = none ∧ h ∉ (st.peers p).index

/-- The key currently holds an entry that does not lose the LWW comparison
against the incoming `(hlc, author)` pair. -/
def entry_ge (cur : Option Entry) (hlc author : Nat) : Prop :=
  ∃ e, cur = some e ∧ ¬ wins e hlc author

/-- The pointwise LWW merge of one incoming insert from author `p` into the
current entry at its key: install into a vacancy, replace a losing entry,
keep a winning one. -/
def lww_merge (cur : Option Entry) (p : Nat) (ins : Insert) : Option Entry :=
  match cur with
  | none => some { value := ins.value, author := p, hlc := ins.hlc }
  | some old =>
    if wins old ins.hlc p then some { value := ins.value, author := p, hlc := ins.hlc }
    else some old

/-- Invariant of a replica that has only ever performed local inserts and
removes: all entries are self-authored, the local index/`keys` pair and the
entries map describe each other bijectively, HLCs are bounded by the
bookmark, and no other peer state has been touched. -/
structure LocalInv (ℓ : Nat) (s : MemStore) : Prop where
  lid : s.local_id = ℓ
  pset : s.peerSet = {ℓ}
  offp : ∀ q, q ≠ ℓ → s.peers q = default
  auth : ∀ k e, s.entries k = some e → e.author = ℓ
  eidx : ∀ k e, s.entries k = some e → e.hlc ∈ (s.peers ℓ).index
  ekey : ∀ k e, s.entries k = some e → (s.peers ℓ).keys e.hlc = some k
  idxe : ∀ h, h ∈ (s.peers ℓ).index →
    ∃ k e, (s.peers ℓ).keys h = some k ∧ s.entries k = some e ∧ e.hlc = h
  inj : ∀ k1 k2 e1 e2, s.entries k1 = some e1 → s.entries k2 = some e2 →
    e1.hlc = e2.hlc → k1 = k2
  ebk : ∀ k e, s.entries k = some e → e.hlc ≤ (s.peers ℓ).bookmark

/-- C2 scenario: replica 0 inserts key 1 (HLC 2^16), then integrates a diff
from peer 2 whose insert at key 1 wins the LWW comparison.  The local HLC
2^16 stays in `peers[0].index` although its entry was displaced. -/
def c2_store : MemStore :=
  (((MemStore.new 0).insert 1 10 M16).1).integrate_diff
    [(2, { inserts := [{ key := 1, value := 20, hlc := 2 * M16 }],
           deletes := ∅, bookmark := 2 * M16 })]

/-- C3 scenario, step 1: replica 0 inserts `(1, 10)` at physical time 0, so
the entry's HLC is 1 (and equals replica 0's bookmark). -/
def c3_a1 : MemStore := ((MemStore.new 0).insert 1 10 0).1

/-- C3 scenario, step 2: replica 1 pulls a diff from replica 0 and holds the
entry. -/
def c3_b1 : MemStore :=
  (MemStore.new 1).integrate_diff (c3_a1.build_diff (MemStore.new 1).request_diff)

/-- C3 scenario, step 3: replica 0 removes key 1. -/
def c3_a2 : MemStore := (c3_a1.remove 1).1

/-- C3 scenario, step 4: second sync, direction B to A (as in the crate's
example: A requests, B builds, A integrates). -/
def c3_a3 : MemStore := c3_a2.integrate_diff (c3_b1.build_diff c3_a2.request_diff)

/-- C3 scenario, step 5: second sync, direction A to B. -/
def c3_b2 : MemStore := c3_b1.integrate_diff (c3_a3.build_diff c3_b1.request_diff)

/-- C4 scenario: a responder that knows peer 2's write with HLC 2, and a
request claiming peer-2 HLCs {1, 2} with bookmark 2.  The peer-2 block then
has no inserts and the non-empty delete set {1}. -/
def c4_store : MemStore :=
  (MemStore.new 0).integrate_diff
    [(2, { inserts := [{ key := 1, value := 20, hlc := 2 }],
           deletes := ∅, bookmark := 2 })]

/-- C4 scenario: the request described above. -/
def c4_request : DiffRequest := fun p =>
  if p = 2 then some { index := {1, 2}, bookmark := 2 } else none

/-- C6 scenario: a store holding peer 0's write at key 1. -/
def c6_store : MemStore :=
  (MemStore.new 9).integrate_diff
    [(0, { inserts := [{ key := 1, value := 100, hlc := 5 }],
           deletes := ∅, bookmark := 5 })]

/-- C6 scenario: a malformed diff (block 2 lists HLC 7 both as an insert and
as a delete), which `build_diff` can never produce. -/
def c6_diff : Diff :=
  [(1, { inserts := [{ key := 1, value := 101, hlc := 3 }],
         deletes := ∅, bookmark := 3 }),
   (2, { inserts := [{ key := 1, value := 102, hlc := 7 }],
         deletes := {7}, bookmark := 7 })]

/-- C7 scenario: a store holding peer 0's write `(key 1, hlc 5)`. -/
def c7_store : MemStore :=
  (MemStore.new 9).integrate_diff
    [(0, { inserts := [{ key := 1, value := 100, hlc := 5 }],
           deletes := ∅, bookmark := 5 })]

/-- C7 scenario: a diff from one peer deleting peer 0's HLC 5. -/
def c7_d1 : Diff := [(0, { inserts := [], deletes := {5}, bookmark := 5 })]

/-- C7 scenario: a diff from another peer carrying peer 2's newer write at
the same key. -/
def c7_d2 : Diff :=
  [(2, { inserts := [{ key := 1, value := 200, hlc := 7 }],
         deletes := ∅, bookmark := 7 })]

/-- C9 scenario: stage `(5, 50)` then `(3, 30)` in a transaction on a fresh
replica and commit at physical time 2^16 (so `h0 = 2^16`). -/
def c9_store : MemStore :=
  (build_txn [.ins 5 50, .ins 3 30]).commit (MemStore.new 0) M16

/-- C9 witness: a transaction with the staged list [(3, 30), (5, 50)] and no
staged deletes. -/
def c9_witness_txn : MemStoreTxn := ⟨[(3, 30), (5, 50)], ∅⟩

end Cubby

namespace Cubby

theorem U64_eq : U64 = 2 ^ 64 := by norm_num [U64]

theorem M16_eq : M16 = 2 ^ 16 := by norm_num [M16]

theorem Hlc.l_le (h : Nat) : Hlc.l h ≤ h := by
  simpa [Hlc.l] using Nat.div_mul_le_self h M16

theorem Hlc.lt_l_add (h : Nat) : h < Hlc.l h + M16 := by
  simp only [Hlc.l, M16]
  omega

theorem Hlc.new_of_aligned {pt : Nat} (hpt : pt % M16 = 0) (hlt : pt < U64) :
    Hlc.new pt 0 = pt := by
  have h1 : pt % U64 = pt := Nat.mod_eq_of_lt hlt
  simp only [Hlc.new, h1, M16] at hpt ⊢
  omega

/-- `Hlc.l h` is a multiple of 2^16, so an aligned `pt` strictly above it is
at least `Hlc.l h + 2^16`, hence above `h` itself. -/
theorem Hlc.lt_of_l_lt_aligned {h pt : Nat} (hpt : pt % M16 = 0)
    (hl : Hlc.l h < pt) : h < pt := by
  have h1 := Hlc.lt_l_add h
  simp only [Hlc.l, M16] at h1 hl hpt ⊢
  omega

/-- C8, counterexample to the claim as stated: at the all-ones `u64` HLC and
sampled time 0, `next` wraps to 0 instead of producing a strictly greater
HLC (`self.0 + 1` overflows `u64`). -/
theorem c8_next_overflow_not_increasing :
    Hlc.next_inner (U64 - 1) 0 = 0 ∧ ¬ U64 - 1 < Hlc.next_inner (U64 - 1) 0 := by
  constructor
  · simp only [Hlc.next_inner, Hlc.l, U64, M16]
    norm_num
  · simp only [Hlc.next_inner, Hlc.l, U64, M16]
    norm_num

/-- C8 (amended: excluding the `u64` overflow of the all-ones HLC): for a
sampled physical time `pt` (16-bit aligned and in `u64` range, as `makept`
guarantees) and an HLC `h` below the `u64` maximum, `next` returns `(pt, 0)`
(= the value `pt`) when `pt` exceeds `h.l`, returns the numeric increment
`h + 1` otherwise, and in either case the result is strictly greater
than `h`. -/
theorem c8_next_spec (h pt : Nat) (hh : h < U64 - 1) (hal : pt % M16 = 0)
    (hlt : pt < U64) :
    (Hlc.l h < pt → Hlc.next_inner h pt = pt) ∧
    (¬ Hlc.l h < pt → Hlc.next_inner h pt = h + 1) ∧
    h < Hlc.next_inner h pt := by
  by_cases hc : Hlc.l h < pt
  · have hmax : max (Hlc.l h) pt = pt := max_eq_right (le_of_lt hc)
    have hne : pt ≠ Hlc.l h := (ne_of_lt hc).symm
    have heq : Hlc.next_inner h pt = pt := by
      simp only [Hlc.next_inner, hmax, if_neg hne]
      exact Hlc.new_of_aligned hal hlt
    refine ⟨fun _ => heq, fun hcon => absurd hc hcon, ?_⟩
    rw [heq]
    exact Hlc.lt_of_l_lt_aligned hal hc
  · have hmax : max (Hlc.l h) pt = Hlc.l h := max_eq_left (le_of_not_lt hc)
    have heq : Hlc.next_inner h pt = h + 1 := by
      simp only [Hlc.next_inner, hmax, if_pos rfl]
      exact Nat.mod_eq_of_lt (by omega)
    exact ⟨fun hcon => absurd hcon hc, fun _ => heq, by omega⟩

/-- Witness for C8 at `h = 5`, `pt = 0`. -/
theorem c8_next_spec_witness :
    (5 < U64 - 1 ∧ 0 % M16 = 0 ∧ 0 < U64) ∧
    ((Hlc.l 5 < 0 → Hlc.next_inner 5 0 = 0) ∧
     (¬ Hlc.l 5 < 0 → Hlc.next_inner 5 0 = 5 + 1) ∧
     5 < Hlc.next_inner 5 0) :=
  ⟨⟨by decide, by decide, by decide⟩, c8_next_spec 5 0 (by decide) (by decide) (by decide)⟩

/-- C2: the index invariant is violated on a reachable state.  After replica
0 inserts key 1 (HLC 2^16) and integrates a winning remote insert at the
same key, the HLC 2^16 is still in `peers[0].index`, but no entry with
author 0 and HLC 2^16 exists (the source records the displaced write in
`overwritten` but never removes it from the author's index). -/
theorem c2_index_invariant_violated :
    M16 ∈ (c2_store.peers 0).index ∧
    ¬ ∃ k e, c2_store.entries k = some e ∧ e.author = 0 ∧ e.hlc = M16 := by
  constructor
  · decide
  · have hent : c2_store.entries =
        Function.update
          (Function.update (fun _ => none) 1
            (some { value := 10, author := 0, hlc := M16 }))
          1 (some { value := 20, author := 2, hlc := 2 * M16 }) := rfl
    rintro ⟨k, e, hk, ha, -⟩
    rw [hent] at hk
    by_cases h1 : k = 1
    · subst h1
      rw [Function.update_same] at hk
      cases hk
      exact absurd ha (by decide)
    · rw [Function.update_noteq h1, Function.update_noteq h1] at hk
      exact Option.noConfusion hk

/-- C3: delete propagation fails when the removed entry carried the author's
bookmark HLC.  Replica 0 inserts `(1, 10)` (HLC 1 = its bookmark), syncs to
replica 1, removes key 1, and the two replicas sync again in both
directions; replica 1 still holds the entry and `peers[0].index` still
contains the HLC 1, because `build_diff`'s `remove_range(bookmark..)` strips
the delete of the bookmark HLC itself. -/
theorem c3_delete_propagation_fails :
    c3_a3.entries 1 = none ∧
    c3_b2.entries 1 = some { value := 10, author := 0, hlc := 1 } ∧
    1 ∈ (c3_b2.peers 0).index := by
  refine ⟨by decide, by decide, by decide⟩

/-- C4, counterexample to the claim as stated: a peer block with no inserts
and a non-empty delete set is dropped from the diff, not included.  In the
scenario, the block `build_diff` computes for peer 2 has `inserts = []` and
the non-empty delete set `{1}`, and the output diff carries a block for
peer 0 only. -/
theorem c4_only_deletes_block_dropped :
    (c4_store.build_block c4_request 2).inserts = [] ∧
    1 ∈ (c4_store.build_block c4_request 2).deletes ∧
    (c4_store.build_diff c4_request).map Prod.fst = [0] := by
  refine ⟨by decide, by decide, by decide⟩

/-- C6, counterexample to the claim as stated: for a malformed diff whose
block lists the same HLC as insert and delete, integrating twice differs
from integrating once (the second pass's delete phase removes the entry via
the re-added `keys` record, and the replay then lets a previously losing
insert land in peer 1's index). -/
theorem c6_double_integration_differs :
    3 ∉ ((c6_store.integrate_diff c6_diff).peers 1).index ∧
    3 ∈ (((c6_store.integrate_diff c6_diff).integrate_diff c6_diff).peers 1).index ∧
    (c6_store.integrate_diff c6_diff).integrate_diff c6_diff ≠
      c6_store.integrate_diff c6_diff := by
  refine ⟨by decide, by decide, fun h => ?_⟩
  have h3 : 3 ∈ (((c6_store.integrate_diff c6_diff).integrate_diff c6_diff).peers 1).index := by
    decide
  rw [h] at h3
  exact absurd h3 (by decide)

/-- C7: integration is not commutative.  Starting from a replica holding
peer 0's write `(key 1, hlc 5)`, integrating a delete of that write (diff
`c7_d1`) before peer 2's newer write at the same key (diff `c7_d2`) keeps
the newer entry; the opposite order deletes it, because the overwrite leaves
the stale `keys[5] = 1` record that the late delete then follows. -/
theorem c7_integration_order_dependent :
    ((c7_store.integrate_diff c7_d1).integrate_diff c7_d2).entries 1 =
      some { value := 200, author := 2, hlc := 7 } ∧
    ((c7_store.integrate_diff c7_d2).integrate_diff c7_d1).entries 1 = none ∧
    (c7_store.integrate_diff c7_d1).integrate_diff c7_d2 ≠
      (c7_store.integrate_diff c7_d2).integrate_diff c7_d1 := by
  refine ⟨by decide, by decide, fun h => ?_⟩
  have h3 : ((c7_store.integrate_diff c7_d1).integrate_diff c7_d2).entries 1 =
      some { value := 200, author := 2, hlc := 7 } := by decide
  rw [h] at h3
  have h4 : ((c7_store.integrate_diff c7_d2).integrate_diff c7_d1).entries 1 = none := by
    decide
  rw [h4] at h3
  exact Option.noConfusion h3

/-- C9, counterexample to the claim as stated: staging `(5, 50)` and then
`(3, 30)` and committing assigns `h0 = 2^16` to key 3 and `h0 + 1` to key 5
(ascending key order), not `h0` to the first-staged key 5 as insertion order
would demand. -/
theorem c9_commit_key_order_not_insertion_order :
    Hlc.next_inner ((MemStore.new 0).peers 0).bookmark M16 = M16 ∧
    c9_store.entries 3 = some { value := 30, author := 0, hlc := M16 } ∧
    c9_store.entries 5 = some { value := 50, author := 0, hlc := M16 + 1 } ∧
    M16 + 1 ≠ M16 := by
  refine ⟨by decide, by decide, by decide, by decide⟩

theorem mem_asc_list {s : Finset Nat} {h : Nat} : h ∈ asc_list s ↔ h ∈ s := by
  unfold asc_list
  rw [List.mem_filter, List.mem_range]
  constructor
  · rintro ⟨-, hs⟩
    exact of_decide_eq_true hs
  · intro hs
    exact ⟨Nat.lt_succ_of_le (Finset.le_sup (f := id) hs), decide_eq_true hs⟩

theorem asc_list_nodup (s : Finset Nat) : (asc_list s).Nodup :=
  (List.nodup_range _).filter _

theorem asc_list_toFinset (s : Finset Nat) : (asc_list s).toFinset = s := by
  ext h
  rw [List.mem_toFinset, mem_asc_list]

/-- Membership in a built diff: a block appears for a peer exactly when the
peer is known to the responder and the computed block passes the inclusion
test. -/
theorem build_diff_mem (s : MemStore) (request : DiffRequest) (p : Nat)
    (d : DiffPeerState) :
    (p, d) ∈ s.build_diff request ↔
      p ∈ s.peerSet ∧ d = s.build_block request p ∧
        (d.inserts ≠ [] ∨ d.deletes = ∅) := by
  unfold MemStore.build_diff
  rw [List.mem_filter]
  constructor
  · rintro ⟨hmem, hcond⟩
    rw [List.mem_map] at hmem
    obtain ⟨a, ha, heq⟩ := hmem
    cases heq
    exact ⟨mem_asc_list.mp ha, rfl, of_decide_eq_true hcond⟩
  · rintro ⟨hp, rfl, hc⟩
    exact ⟨List.mem_map.mpr ⟨p, mem_asc_list.mpr hp, rfl⟩, decide_eq_true hc⟩

/-- C4 (amended): `build_diff`'s output contains a block for a peer exactly
when that peer is known to the responder and the computed block has at least
one insert or an empty delete set; only-delete blocks are dropped. -/
theorem c4_block_inclusion (s : MemStore) (request : DiffRequest) (p : Nat)
    (d : DiffPeerState) :
    (p, d) ∈ s.build_diff request ↔
      p ∈ s.peerSet ∧ d = s.build_block request p ∧
        (d.inserts ≠ [] ∨ d.deletes = ∅) :=
  build_diff_mem s request p d

/-- The HLCs of the inserts `build_diff` materializes for a bitmap are
exactly that bitmap's ascending enumeration. -/
theorem materialize_hlcs (s : MemStore) (ps : PeerState) (X : Finset Nat) :
    (s.materialize ps X).map Insert.hlc = asc_list X := by
  unfold MemStore.materialize
  rw [List.map_map]
  have hfun : Insert.hlc ∘ (fun h =>
      ({ key := (ps.keys h).getD 0,
         value := (s.get ((ps.keys h).getD 0)).getD 0,
         hlc := h } : Insert)) = id := rfl
  rw [hfun, List.map_id]

/-- C5: for a peer known to both sides, the computed block's insert HLC set
is the responder-live, requester-unlisted set above the requester's
bookmark, and its delete set is the requester-live, responder-unlisted set
below the responder's bookmark; for a peer absent from the request, the
inserts cover the full index and the deletes are empty. -/
theorem c5_diff_computation (s : MemStore) (request : DiffRequest) (p : Nat)
    (_hp : p ∈ s.peerSet) :
    (∀ rq, request p = some rq →
      ((s.build_block request p).inserts.map Insert.hlc).toFinset =
          spec_insert_hlcs (s.peers p).index rq.index rq.bookmark ∧
        (s.build_block request p).deletes =
          spec_delete_hlcs (s.peers p).index rq.index (s.peers p).bookmark) ∧
    (request p = none →
      ((s.build_block request p).inserts.map Insert.hlc).toFinset =
          (s.peers p).index ∧
        (s.build_block request p).deletes = ∅) := by
  constructor
  · intro rq hrq
    simp only [MemStore.build_block, hrq]
    constructor
    · rw [materialize_hlcs, asc_list_toFinset]
      ext h
      simp only [spec_insert_hlcs, Finset.mem_filter, Finset.mem_sdiff, not_le]
      tauto
    · ext h
      simp only [spec_delete_hlcs, Finset.mem_filter, Finset.mem_sdiff]
      tauto
  · intro hrq
    simp only [MemStore.build_block, hrq]
    exact ⟨by rw [materialize_hlcs, asc_list_toFinset], trivial⟩

/-- Witness for C5: the fresh replica 0 and the empty request. -/
theorem c5_diff_computation_witness :
    0 ∈ (MemStore.new 0).peerSet ∧
    ((∀ rq, (fun _ => none : DiffRequest) 0 = some rq →
      (((MemStore.new 0).build_block (fun _ => none) 0).inserts.map
          Insert.hlc).toFinset =
          spec_insert_hlcs ((MemStore.new 0).peers 0).index rq.index rq.bookmark ∧
        ((MemStore.new 0).build_block (fun _ => none) 0).deletes =
          spec_delete_hlcs ((MemStore.new 0).peers 0).index rq.index
            ((MemStore.new 0).peers 0).bookmark) ∧
    ((fun _ => none : DiffRequest) 0 = none →
      (((MemStore.new 0).build_block (fun _ => none) 0).inserts.map
          Insert.hlc).toFinset = ((MemStore.new 0).peers 0).index ∧
        ((MemStore.new 0).build_block (fun _ => none) 0).deletes = ∅)) :=
  ⟨by decide, c5_diff_computation (MemStore.new 0) (fun _ => none) 0 (by decide)⟩

/-- `insert_with_hlc` installs the new entry at its key; with a transaction
HLC `h`, the entry is `(value, local id, h)`. -/
theorem insert_with_hlc_entries_self (s : MemStore) (k v h pt : Nat) :
    ((s.insert_with_hlc k v (some h) pt).1).entries k =
      some { value := v, author := s.local_id, hlc := h } := by
  rcases hE : s.entries k with _ | old <;>
    simp [MemStore.insert_with_hlc, hE, Function.update_same]

/-- `insert_with_hlc` leaves entries at other keys unchanged. -/
theorem insert_with_hlc_entries_other (s : MemStore) (k v pt : Nat)
    (t : Option Nat) {q : Nat} (hne : q ≠ k) :
    ((s.insert_with_hlc k v t pt).1).entries q = s.entries q := by
  rcases hE : s.entries k with _ | old <;>
    simp [MemStore.insert_with_hlc, hE, Function.update_noteq hne]

/-- `insert_with_hlc` does not change the local peer id. -/
theorem insert_with_hlc_local_id (s : MemStore) (k v pt : Nat)
    (t : Option Nat) :
    ((s.insert_with_hlc k v t pt).1).local_id = s.local_id := by
  rcases hE : s.entries k with _ | old <;>
    simp [MemStore.insert_with_hlc, hE]

/-- After `remove k`, the entry at `k` is gone (whether or not it existed). -/
theorem remove_entries_self (s : MemStore) (k : Nat) :
    ((s.remove k).1).entries k = none := by
  rcases hE : s.entries k with _ | old <;>
    simp [MemStore.remove, hE, Function.update_same]

/-- `remove k` leaves entries at other keys unchanged. -/
theorem remove_entries_other (s : MemStore) (k : Nat) {q : Nat} (hne : q ≠ k) :
    ((s.remove k).1).entries q = s.entries q := by
  rcases hE : s.entries k with _ | old <;>
    simp [MemStore.remove, hE, Function.update_noteq hne]

/-- The delete loop of `commit` never resurrects an absent entry. -/
theorem del_fold_none (k : Nat) :
    ∀ (l : List Nat) (st : MemStore), st.entries k = none →
      (l.foldl commit_del_step st).entries k = none := by
  intro l
  induction l with
  | nil => intro st h; exact h
  | cons a rest ih =>
    intro st h
    rw [List.foldl_cons]
    refine ih _ ?_
    by_cases hak : k = a
    · subst hak; exact remove_entries_self st k
    · rw [commit_del_step, remove_entries_other st a hak]; exact h

/-- After the delete loop, every deleted key's entry is gone. -/
theorem del_fold_of_mem (k : Nat) :
    ∀ (l : List Nat) (st : MemStore), k ∈ l →
      (l.foldl commit_del_step st).entries k = none := by
  intro l
  induction l with
  | nil => intro st h; cases h
  | cons a rest ih =>
    intro st h
    rw [List.foldl_cons]
    by_cases hak : k = a
    · subst hak
      exact del_fold_none k rest _ (remove_entries_self st k)
    · rcases List.mem_cons.mp h with h1 | h2
      · exact absurd h1 hak
      · exact ih _ h2

/-- The delete loop leaves keys it does not delete unchanged. -/
theorem del_fold_keep (k : Nat) :
    ∀ (l : List Nat) (st : MemStore), k ∉ l →
      (l.foldl commit_del_step st).entries k = st.entries k := by
  intro l
  induction l with
  | nil => intro st _; rfl
  | cons a rest ih =>
    intro st h
    rw [List.foldl_cons]
    have hak : k ≠ a := fun hk => h (hk ▸ List.mem_cons_self a rest)
    rw [ih _ (fun hr => h (List.mem_cons_of_mem a hr)),
      commit_del_step, remove_entries_other st a hak]

/-- The insert loop of `commit` leaves keys outside the staged list
unchanged. -/
theorem ins_fold_keep (pt k : Nat) :
    ∀ (l : List (Nat × Nat)) (st : MemStore) (h0 : Nat),
      (∀ kv ∈ l, kv.1 ≠ k) →
      ((l.foldl (commit_ins_step pt) (st, h0)).1).entries k = st.entries k := by
  intro l
  induction l with
  | nil => intro st h0 _; rfl
  | cons a rest ih =>
    intro st h0 h
    rw [List.foldl_cons]
    rw [commit_ins_step]
    rw [ih _ _ (fun kv hkv => h kv (List.mem_cons_of_mem a hkv))]
    exact insert_with_hlc_entries_other st a.1 a.2 pt _
      (fun hq => (h a (List.mem_cons_self a rest)) hq.symm)

/-- The insert loop of `commit` does not change the local peer id. -/
theorem ins_fold_local_id (pt : Nat) :
    ∀ (l : List (Nat × Nat)) (st : MemStore) (h0 : Nat),
      ((l.foldl (commit_ins_step pt) (st, h0)).1).local_id = st.local_id := by
  intro l
  induction l with
  | nil => intro st h0; rfl
  | cons a rest ih =>
    intro st h0
    rw [List.foldl_cons, commit_ins_step, ih]
    exact insert_with_hlc_local_id st a.1 a.2 pt _

/-- The insert loop of `commit` writes the `i`-th staged pair (in staged
list order) with HLC `h0 + i`, provided the staged keys are distinct and the
HLC run does not wrap `u64`. -/
theorem ins_fold_entries (pt : Nat) :
    ∀ (l : List (Nat × Nat)) (st : MemStore) (h0 : Nat),
      (l.map Prod.fst).Nodup → h0 + l.length < U64 →
      ∀ (i : Nat) (hi : i < l.length),
        ((l.foldl (commit_ins_step pt) (st, h0)).1).entries (l.get ⟨i, hi⟩).1 =
          some { value := (l.get ⟨i, hi⟩).2, author := st.local_id,
                 hlc := h0 + i } := by
  intro l
  induction l with
  | nil => intro st h0 _ _ i hi; cases hi
  | cons a rest ih =>
    intro st h0 hnd hbound i hi
    rw [List.map_cons, List.nodup_cons] at hnd
    rw [List.foldl_cons]
    match i with
    | 0 =>
      simp only [List.get]
      rw [commit_ins_step]
      have hkeep : ∀ kv ∈ rest, kv.1 ≠ a.1 := by
        intro kv hkv he
        exact hnd.1 (he ▸ List.mem_map_of_mem Prod.fst hkv)
      rw [ins_fold_keep pt a.1 rest _ _ hkeep]
      rw [insert_with_hlc_entries_self]
      rw [Nat.add_zero]
    | i + 1 =>
      simp only [List.get]
      have hinc : Hlc.inc h0 = h0 + 1 := by
        rw [Hlc.inc]
        have : h0 + 1 < U64 := by
          simp only [List.length_cons] at hbound
          omega
        exact Nat.mod_eq_of_lt this
      rw [commit_ins_step, hinc]
      have hbound2 : h0 + 1 + rest.length < U64 := by
        simp only [List.length_cons] at hbound
        omega
      have hres := ih ((st.insert_with_hlc a.1 a.2 (some h0) pt).1) (h0 + 1)
        hnd.2 hbound2 i (Nat.lt_of_succ_lt_succ hi)
      rw [hres, insert_with_hlc_local_id]
      have harith : h0 + 1 + i = h0 + (i + 1) := by omega
      rw [harith]

/-- C10: within a transaction, `remove(k)` discards any staged insert of `k`
and stages `k` for deletion, so after commit the store has no entry
at `k` — whatever the starting store and the earlier staging operations. -/
theorem c10_txn_remove_discards (s : MemStore) (ops : List TxnOp) (k pt : Nat) :
    ((build_txn (ops ++ [TxnOp.del k])).commit s pt).entries k = none := by
  have hb : build_txn (ops ++ [TxnOp.del k]) = (build_txn ops).remove k := by
    unfold build_txn
    rw [List.foldl_append]
    rfl
  rw [hb]
  unfold MemStoreTxn.commit
  refine del_fold_of_mem k _ _ ?_
  rw [mem_asc_list]
  exact Finset.mem_insert_self k _

/-- C9 (amended): `commit` allocates `h0 = bookmark.next()` and writes the
staged inserts in ascending key order (the `BTreeMap` iteration order) with
the consecutive HLCs `h0, h0+1, h0+2, …`, and only afterwards applies the
staged deletes: a staged key that is also staged for deletion ends with no
entry.  Stated for any transaction whose staged list is strictly sorted by
key (as `BTreeMap` iteration guarantees) and whose HLC run does not
wrap `u64`. -/
theorem c9_commit_spec (s : MemStore) (t : MemStoreTxn) (pt : Nat)
    (hsort : List.Pairwise (fun a b : Nat × Nat => a.1 < b.1) t.inserts)
    (hnw : Hlc.next_inner (s.peers s.local_id).bookmark pt + t.inserts.length
      < U64) :
    (∀ (i : Nat) (hi : i < t.inserts.length),
      (t.inserts.get ⟨i, hi⟩).1 ∉ t.deletes →
      (t.commit s pt).entries (t.inserts.get ⟨i, hi⟩).1 =
        some { value := (t.inserts.get ⟨i, hi⟩).2, author := s.local_id,
               hlc := Hlc.next_inner (s.peers s.local_id).bookmark pt + i }) ∧
    (∀ k ∈ t.deletes, (t.commit s pt).entries k = none) := by
  have hnd : (t.inserts.map Prod.fst).Nodup := by
    have hpw2 : (t.inserts.map Prod.fst).Pairwise (· < ·) :=
      List.Pairwise.map Prod.fst (fun x y h => h) hsort
    exact hpw2.imp Nat.ne_of_lt
  constructor
  · intro i hi hkd
    unfold MemStoreTxn.commit
    rw [del_fold_keep _ _ _ (fun hmem => hkd (mem_asc_list.mp hmem))]
    exact ins_fold_entries pt t.inserts s _ hnd hnw i hi
  · intro k hk
    unfold MemStoreTxn.commit
    exact del_fold_of_mem k _ _ (mem_asc_list.mpr hk)

/-- Witness for C9: committing the staged list [(3, 30), (5, 50)] on a
fresh replica at physical time 0. -/
theorem c9_commit_spec_witness :
    (List.Pairwise (fun a b : Nat × Nat => a.1 < b.1) c9_witness_txn.inserts ∧
      Hlc.next_inner ((MemStore.new 0).peers (MemStore.new 0).local_id).bookmark 0 + c9_witness_txn.inserts.length < U64) ∧
    ((∀ (i : Nat) (hi : i < c9_witness_txn.inserts.length),
      (c9_witness_txn.inserts.get ⟨i, hi⟩).1 ∉ c9_witness_txn.deletes →
      (c9_witness_txn.commit (MemStore.new 0) 0).entries (c9_witness_txn.inserts.get ⟨i, hi⟩).1 =
        some { value := (c9_witness_txn.inserts.get ⟨i, hi⟩).2, author := (MemStore.new 0).local_id, hlc := Hlc.next_inner ((MemStore.new 0).peers (MemStore.new 0).local_id).bookmark 0 + i }) ∧
    (∀ k ∈ c9_witness_txn.deletes, (c9_witness_txn.commit (MemStore.new 0) 0).entries k = none)) :=
  ⟨⟨by decide, by decide⟩,
    c9_commit_spec (MemStore.new 0) c9_witness_txn 0 (by decide) (by decide)⟩

/-- A left fold whose steps fix the state is the identity. -/
theorem foldl_id_of {α β : Type} (f : α → β → α) (s : α) (l : List β)
    (h : ∀ x ∈ l, f s x = s) : l.foldl f s = s := by
  induction l with
  | nil => rfl
  | cons a rest ih =>
    rw [List.foldl_cons, h a (List.mem_cons_self a rest)]
    exact ih fun x hx => h x (List.mem_cons_of_mem a hx)

theorem apd_peerSet (s : MemStore) (pd : Nat × DiffPeerState) :
    (s.apply_peer_deletes pd).peerSet = s.peerSet := by
  unfold MemStore.apply_peer_deletes
  split <;> rfl

theorem apd_local_id (s : MemStore) (pd : Nat × DiffPeerState) :
    (s.apply_peer_deletes pd).local_id = s.local_id := by
  unfold MemStore.apply_peer_deletes
  split <;> rfl

theorem apd_peers_other (s : MemStore) (pd : Nat × DiffPeerState) {q : Nat}
    (hq : q ≠ pd.1) : (s.apply_peer_deletes pd).peers q = s.peers q := by
  unfold MemStore.apply_peer_deletes
  split
  · exact Function.update_noteq hq _ _
  · rfl

/-- Steps of the delete loop never make a `keys` record reappear. -/
theorem del_fold_fst_none (l : List Nat) :
    ∀ (st : (Nat → Option Nat) × (Nat → Option Entry)) (h : Nat),
      st.1 h = none → (l.foldl del_step st).1 h = none := by
  induction l with
  | nil => intro st h hh; exact hh
  | cons a rest ih =>
    intro st h hh
    rw [List.foldl_cons]
    refine ih _ h ?_
    unfold del_step
    split
    · next k heq =>
      show Function.update st.1 a none h = none
      by_cases hha : h = a
      · subst hha; exact Function.update_same h none st.1
      · rw [Function.update_noteq hha]; exact hh
    · exact hh

/-- After the delete loop, every listed HLC's `keys` record is gone. -/
theorem del_fold_fst_mem (l : List Nat) :
    ∀ (st : (Nat → Option Nat) × (Nat → Option Entry)) (h : Nat),
      h ∈ l → (l.foldl del_step st).1 h = none := by
  induction l with
  | nil => intro st h hh; cases hh
  | cons a rest ih =>
    intro st h hh
    rw [List.foldl_cons]
    by_cases hha : h = a
    · subst hha
      refine del_fold_fst_none rest _ h ?_
      unfold del_step
      split
      · show Function.update st.1 h none h = none
        exact Function.update_same h none st.1
      · next heq => exact heq
    · rcases List.mem_cons.mp hh with h1 | h2
      · exact absurd h1 hha
      · exact ih _ h h2

/-- The delete loop is the identity when none of the listed HLCs has a
`keys` record. -/
theorem del_fold_id (l : List Nat)
    (st : (Nat → Option Nat) × (Nat → Option Entry))
    (hnone : ∀ h ∈ l, st.1 h = none) : l.foldl del_step st = st := by
  refine foldl_id_of del_step st l fun h hh => ?_
  unfold del_step
  rw [hnone h hh]

/-- One block of the delete phase leaves the block's peer clean. -/
theorem apd_self_clean (s : MemStore) (p : Nat) (dp : DiffPeerState)
    (hp : p ∈ s.peerSet) : peer_clean (s.apply_peer_deletes (p, dp)) p dp := by
  intro h hh
  unfold MemStore.apply_peer_deletes
  rw [if_pos hp]
  constructor
  · simp only [Function.update_same]
    exact del_fold_fst_mem _ _ h (mem_asc_list.mpr hh)
  · simp only [Function.update_same]
    intro hmem
    exact (Finset.mem_sdiff.mp hmem).2 hh

theorem lww_install_peerSet (st : MemStore) (p : Nat) (ins : Insert) :
    (st.lww_install p ins).peerSet = st.peerSet := rfl

theorem lww_step_peerSet (st : MemStore) (p : Nat) (ins : Insert) :
    (st.lww_step p ins).peerSet = st.peerSet := by
  unfold MemStore.lww_step
  split
  · rfl
  · split <;> rfl

theorem lww_step_local_id (st : MemStore) (p : Nat) (ins : Insert) :
    (st.lww_step p ins).local_id = st.local_id := by
  unfold MemStore.lww_step
  split
  · rfl
  · split <;> rfl

theorem lww_install_peers_other (st : MemStore) (p : Nat) (ins : Insert)
    {q : Nat} (hq : q ≠ p) : (st.lww_install p ins).peers q = st.peers q :=
  Function.update_noteq hq _ _

theorem lww_step_peers_other (st : MemStore) (p : Nat) (ins : Insert)
    {q : Nat} (hq : q ≠ p) : (st.lww_step p ins).peers q = st.peers q := by
  unfold MemStore.lww_step
  split
  · exact lww_install_peers_other st p ins hq
  · split
    · exact lww_install_peers_other st p ins hq
    · rfl

theorem lww_install_entries_other (st : MemStore) (p : Nat) (ins : Insert)
    {k : Nat} (hk : k ≠ ins.key) :
    (st.lww_install p ins).entries k = st.entries k :=
  Function.update_noteq hk _ _

theorem lww_step_entries_other (st : MemStore) (p : Nat) (ins : Insert)
    {k : Nat} (hk : k ≠ ins.key) :
    (st.lww_step p ins).entries k = st.entries k := by
  unfold MemStore.lww_step
  split
  · exact lww_install_entries_other st p ins hk
  · split
    · exact lww_install_entries_other st p ins hk
    · rfl

theorem lww_install_keys_self (st : MemStore) (p : Nat) (ins : Insert)
    {h : Nat} (hh : h ≠ ins.hlc) :
    ((st.lww_install p ins).peers p).keys h = ((st.peers p)).keys h := by
  unfold MemStore.lww_install
  simp only [Function.update_same]
  exact Function.update_noteq hh _ _

theorem lww_step_keys_self (st : MemStore) (p : Nat) (ins : Insert)
    {h : Nat} (hh : h ≠ ins.hlc) :
    ((st.lww_step p ins).peers p).keys h = ((st.peers p)).keys h := by
  unfold MemStore.lww_step
  split
  · exact lww_install_keys_self st p ins hh
  · split
    · exact lww_install_keys_self st p ins hh
    · rfl

theorem lww_install_index_self (st : MemStore) (p : Nat) (ins : Insert)
    {h : Nat} (hh : h ≠ ins.hlc) :
    (h ∈ ((st.lww_install p ins).peers p).index ↔ h ∈ (st.peers p).index) := by
  unfold MemStore.lww_install
  simp only [Function.update_same]
  rw [Finset.mem_insert]
  exact ⟨fun hc => hc.resolve_left hh, Or.inr⟩

theorem lww_step_index_self (st : MemStore) (p : Nat) (ins : Insert)
    {h : Nat} (hh : h ≠ ins.hlc) :
    (h ∈ ((st.lww_step p ins).peers p).index ↔ h ∈ (st.peers p).index) := by
  unfold MemStore.lww_step
  split
  · exact lww_install_index_self st p ins hh
  · split
    · exact lww_install_index_self st p ins hh
    · exact Iff.rfl

theorem lww_install_bookmark (st : MemStore) (p : Nat) (ins : Insert) :
    ((st.lww_install p ins).peers p).bookmark = (st.peers p).bookmark := by
  unfold MemStore.lww_install
  simp only [Function.update_same]

theorem lww_step_bookmark (st : MemStore) (p : Nat) (ins : Insert) :
    ((st.lww_step p ins).peers p).bookmark = (st.peers p).bookmark := by
  unfold MemStore.lww_step
  split
  · exact lww_install_bookmark st p ins
  · split
    · exact lww_install_bookmark st p ins
    · rfl

/-- No entry beats itself in the LWW comparison. -/
theorem wins_self_false {v p h : Nat} :
    ¬ wins { value := v, author := p, hlc := h } h p := by
  simp only [wins]
  omega

/-- If the current entry already beats `(h, a)` and an incoming `(h2, a2)`
beats the current entry, the incoming entry also beats `(h, a)`. -/
theorem wins_shift {e : Entry} {h a h2 a2 v : Nat} (h1 : ¬ wins e h a)
    (h2w : wins e h2 a2) :
    ¬ wins { value := v, author := a2, hlc := h2 } h a := by
  simp only [wins] at *
  omega

theorem lww_install_entries_self (st : MemStore) (p : Nat) (ins : Insert) :
    (st.lww_install p ins).entries ins.key =
      some { value := ins.value, author := p, hlc := ins.hlc } := by
  unfold MemStore.lww_install
  simp only [Function.update_same]

/-- One LWW step preserves `entry_ge` at every key. -/
theorem lww_step_pres_ge (st : MemStore) (q : Nat) (ins : Insert)
    {k h a : Nat} (hge : entry_ge (st.entries k) h a) :
    entry_ge ((st.lww_step q ins).entries k) h a := by
  by_cases hk : k = ins.key
  · subst hk
    obtain ⟨e, he, hnw⟩ := hge
    unfold MemStore.lww_step
    rw [he]
    dsimp only
    split
    · next hw => exact ⟨_, lww_install_entries_self st q ins, wins_shift hnw hw⟩
    · exact ⟨e, he, hnw⟩
  · rw [lww_step_entries_other st q ins hk]
    exact hge

/-- After its own LWW step, an insert's key holds an entry at least as
strong as the insert. -/
theorem lww_step_self_ge (st : MemStore) (p : Nat) (ins : Insert) :
    entry_ge ((st.lww_step p ins).entries ins.key) ins.hlc p := by
  unfold MemStore.lww_step
  split
  · exact ⟨_, lww_install_entries_self st p ins, wins_self_false⟩
  · next old hold =>
    split
    · exact ⟨_, lww_install_entries_self st p ins, wins_self_false⟩
    · next hnw => exact ⟨old, hold, hnw⟩

theorem lfold_peerSet (p : Nat) (l : List Insert) :
    ∀ st : MemStore,
      (l.foldl (fun st ins => st.lww_step p ins) st).peerSet = st.peerSet := by
  induction l with
  | nil => intro st; rfl
  | cons a rest ih =>
    intro st
    rw [List.foldl_cons, ih, lww_step_peerSet]

theorem lfold_local_id (p : Nat) (l : List Insert) :
    ∀ st : MemStore,
      (l.foldl (fun st ins => st.lww_step p ins) st).local_id = st.local_id := by
  induction l with
  | nil => intro st; rfl
  | cons a rest ih =>
    intro st
    rw [List.foldl_cons, ih, lww_step_local_id]

theorem lfold_peers_other (p : Nat) (l : List Insert) {q : Nat} (hq : q ≠ p) :
    ∀ st : MemStore,
      (l.foldl (fun st ins => st.lww_step p ins) st).peers q = st.peers q := by
  induction l with
  | nil => intro st; rfl
  | cons a rest ih =>
    intro st
    rw [List.foldl_cons, ih, lww_step_peers_other st p a hq]

theorem lfold_entries_other (p : Nat) (l : List Insert) {k : Nat}
    (hk : ∀ ins ∈ l, k ≠ ins.key) :
    ∀ st : MemStore,
      (l.foldl (fun st ins => st.lww_step p ins) st).entries k = st.entries k := by
  induction l with
  | nil => intro st; rfl
  | cons a rest ih =>
    intro st
    rw [List.foldl_cons, ih fun ins hins => hk ins (List.mem_cons_of_mem a hins),
      lww_step_entries_other st p a (hk a (List.mem_cons_self a rest))]

theorem lfold_keys_self (p : Nat) (l : List Insert) {h : Nat}
    (hh : ∀ ins ∈ l, h ≠ ins.hlc) :
    ∀ st : MemStore,
      ((l.foldl (fun st ins => st.lww_step p ins) st).peers p).keys h =
        (st.peers p).keys h := by
  induction l with
  | nil => intro st; rfl
  | cons a rest ih =>
    intro st
    rw [List.foldl_cons, ih fun ins hins => hh ins (List.mem_cons_of_mem a hins),
      lww_step_keys_self st p a (hh a (List.mem_cons_self a rest))]

theorem lfold_index_self (p : Nat) (l : List Insert) {h : Nat}
    (hh : ∀ ins ∈ l, h ≠ ins.hlc) :
    ∀ st : MemStore,
      (h ∈ ((l.foldl (fun st ins => st.lww_step p ins) st).peers p).index ↔
        h ∈ (st.peers p).index) := by
  induction l with
  | nil => intro st; exact Iff.rfl
  | cons a rest ih =>
    intro st
    rw [List.foldl_cons]
    exact ((ih fun ins hins => hh ins (List.mem_cons_of_mem a hins))
        (st.lww_step p a)).trans
      (lww_step_index_self st p a (hh a (List.mem_cons_self a rest)))

theorem lfold_bookmark (p : Nat) (l : List Insert) :
    ∀ st : MemStore,
      ((l.foldl (fun st ins => st.lww_step p ins) st).peers p).bookmark =
        (st.peers p).bookmark := by
  induction l with
  | nil => intro st; rfl
  | cons a rest ih =>
    intro st
    rw [List.foldl_cons, ih, lww_step_bookmark]

theorem lfold_pres_ge (p : Nat) (l : List Insert) {k h a : Nat} :
    ∀ st : MemStore, entry_ge (st.entries k) h a →
      entry_ge ((l.foldl (fun st ins => st.lww_step p ins) st).entries k) h a := by
  induction l with
  | nil => intro st hge; exact hge
  | cons i0 rest ih =>
    intro st hge
    rw [List.foldl_cons]
    exact ih _ (lww_step_pres_ge st p i0 hge)

theorem lfold_ge_mem (p : Nat) (l : List Insert) {ins : Insert}
    (hins : ins ∈ l) :
    ∀ st : MemStore,
      entry_ge ((l.foldl (fun st ins => st.lww_step p ins) st).entries ins.key)
        ins.hlc p := by
  induction l with
  | nil => cases hins
  | cons i0 rest ih =>
    intro st
    rw [List.foldl_cons]
    rcases List.mem_cons.mp hins with h1 | h2
    · subst h1
      exact lfold_pres_ge p rest _ (lww_step_self_ge st p ins)
    · exact ih h2 _
theorem ipi_peerSet (s : MemStore) (p : Nat) (dp : DiffPeerState) :
    (s.integrate_peer_inserts p dp).peerSet = Insert.insert p s.peerSet := by
  unfold MemStore.integrate_peer_inserts
  rw [lfold_peerSet]
  by_cases hp : p ∈ s.peerSet
  · rw [if_pos hp]
    exact (Finset.insert_eq_self.mpr hp).symm
  · rw [if_neg hp]

theorem ipi_local_id (s : MemStore) (p : Nat) (dp : DiffPeerState) :
    (s.integrate_peer_inserts p dp).local_id = s.local_id := by
  unfold MemStore.integrate_peer_inserts
  rw [lfold_local_id]
  by_cases hp : p ∈ s.peerSet
  · rw [if_pos hp]
  · rw [if_neg hp]

theorem ipi_peers_other (s : MemStore) (p : Nat) (dp : DiffPeerState)
    {q : Nat} (hq : q ≠ p) :
    (s.integrate_peer_inserts p dp).peers q = s.peers q := by
  unfold MemStore.integrate_peer_inserts
  dsimp only
  rw [Function.update_noteq hq, lfold_peers_other p dp.inserts hq]
  by_cases hp : p ∈ s.peerSet
  · rw [if_pos hp]
  · rw [if_neg hp]
    exact Function.update_noteq hq _ _

theorem ipi_entries (s : MemStore) (p : Nat) (dp : DiffPeerState) :
    (s.integrate_peer_inserts p dp).entries =
      (dp.inserts.foldl (fun st ins => st.lww_step p ins)
        (if p ∈ s.peerSet then s
         else { s with peerSet := Insert.insert p s.peerSet,
                       peers := Function.update s.peers p default })).entries :=
  rfl

theorem ipi_bookmark_ge (s : MemStore) (p : Nat) (dp : DiffPeerState) :
    dp.bookmark ≤ ((s.integrate_peer_inserts p dp).peers p).bookmark := by
  unfold MemStore.integrate_peer_inserts
  dsimp only
  rw [Function.update_same]
  exact le_max_right _ _

theorem ipi_pres_ge (s : MemStore) (q : Nat) (dq : DiffPeerState)
    {k h a : Nat} (hge : entry_ge (s.entries k) h a) :
    entry_ge ((s.integrate_peer_inserts q dq).entries k) h a := by
  rw [ipi_entries]
  refine lfold_pres_ge q dq.inserts _ ?_
  by_cases hp : q ∈ s.peerSet
  · rw [if_pos hp]; exact hge
  · rw [if_neg hp]; exact hge

theorem ipi_ge_mem (s : MemStore) (p : Nat) (dp : DiffPeerState)
    {ins : Insert} (hins : ins ∈ dp.inserts) :
    entry_ge ((s.integrate_peer_inserts p dp).entries ins.key) ins.hlc p := by
  rw [ipi_entries]
  exact lfold_ge_mem p dp.inserts hins _

/-- Integrating a well-formed block leaves its peer clean of the block's
deletes, whether the peer was clean before (when known) or fresh. -/
theorem ipi_clean (s : MemStore) (p : Nat) (dp : DiffPeerState)
    (hwf : block_wf dp) (hcl : p ∈ s.peerSet → peer_clean s p dp) :
    peer_clean (s.integrate_peer_inserts p dp) p dp := by
  intro h hh
  have hne : ∀ ins ∈ dp.inserts, h ≠ ins.hlc := by
    intro ins hins he
    exact hwf ins hins (he ▸ hh)
  unfold MemStore.integrate_peer_inserts
  dsimp only
  rw [Function.update_same]
  constructor
  · show ((dp.inserts.foldl (fun (st : MemStore) ins => st.lww_step p ins)
      _).peers p).keys h = none
    rw [lfold_keys_self p dp.inserts hne]
    by_cases hp : p ∈ s.peerSet
    · rw [if_pos hp]; exact (hcl hp h hh).1
    · rw [if_neg hp]
      show (Function.update s.peers p default p).keys h = none
      rw [Function.update_same]
      rfl
  · show h ∉ ((dp.inserts.foldl (fun (st : MemStore) ins => st.lww_step p ins)
      _).peers p).index
    rw [lfold_index_self p dp.inserts hne]
    by_cases hp : p ∈ s.peerSet
    · rw [if_pos hp]; exact (hcl hp h hh).2
    · rw [if_neg hp]
      show h ∉ (Function.update s.peers p default p).index
      rw [Function.update_same]
      exact Finset.not_mem_empty h

theorem fst_mem_of_mem {l : Diff} {x : Nat × DiffPeerState} (hx : x ∈ l) :
    x.1 ∈ l.map Prod.fst :=
  List.mem_map.mpr ⟨x, hx, rfl⟩

theorem peer_clean_congr {st st2 : MemStore} {p : Nat} {dp : DiffPeerState}
    (hpe : st2.peers p = st.peers p) (hcl : peer_clean st p dp) :
    peer_clean st2 p dp := by
  intro h hh
  rw [hpe]
  exact hcl h hh

theorem phaseA_peerSet (d : Diff) :
    ∀ s : MemStore, (d.foldl MemStore.apply_peer_deletes s).peerSet = s.peerSet := by
  induction d with
  | nil => intro s; rfl
  | cons pd rest ih =>
    intro s
    rw [List.foldl_cons, ih, apd_peerSet]

theorem phaseA_local_id (d : Diff) :
    ∀ s : MemStore, (d.foldl MemStore.apply_peer_deletes s).local_id = s.local_id := by
  induction d with
  | nil => intro s; rfl
  | cons pd rest ih =>
    intro s
    rw [List.foldl_cons, ih, apd_local_id]

theorem phaseA_peers_untouched (d : Diff) {p : Nat} (hq : ∀ pd ∈ d, pd.1 ≠ p) :
    ∀ s : MemStore, (d.foldl MemStore.apply_peer_deletes s).peers p = s.peers p := by
  induction d with
  | nil => intro s; rfl
  | cons pd rest ih =>
    intro s
    rw [List.foldl_cons, ih fun x hx => hq x (List.mem_cons_of_mem pd hx),
      apd_peers_other s pd (fun hc => hq pd (List.mem_cons_self pd rest) hc.symm)]

theorem phaseA_clean (d : Diff) (hnd : (d.map Prod.fst).Nodup) (p : Nat)
    (dp : DiffPeerState) :
    ∀ s : MemStore, (p, dp) ∈ d → p ∈ s.peerSet →
      peer_clean (d.foldl MemStore.apply_peer_deletes s) p dp := by
  induction d with
  | nil => intro s hmem; cases hmem
  | cons pd rest ih =>
    intro s hmem hp
    rw [List.map_cons, List.nodup_cons] at hnd
    rw [List.foldl_cons]
    rcases List.mem_cons.mp hmem with h1 | h2
    · cases h1
      refine peer_clean_congr (phaseA_peers_untouched rest ?_ _)
        (apd_self_clean s p dp hp)
      intro x hx he
      have hxm : x.1 ∈ rest.map Prod.fst := fst_mem_of_mem hx
      rw [he] at hxm
      exact hnd.1 hxm
    · refine ih hnd.2 _ h2 ?_
      rw [apd_peerSet]
      exact hp

theorem phaseB_peerSet_mono (d : Diff) :
    ∀ s : MemStore, s.peerSet ⊆
      (d.foldl (fun st pd => st.integrate_peer_inserts pd.1 pd.2) s).peerSet := by
  induction d with
  | nil => intro s; exact Finset.Subset.refl _
  | cons pd rest ih =>
    intro s
    rw [List.foldl_cons]
    refine Finset.Subset.trans ?_ (ih _)
    rw [ipi_peerSet]
    exact Finset.subset_insert _ _

theorem phaseB_peerSet_mem (d : Diff) (p : Nat) (dp : DiffPeerState)
    (hmem : (p, dp) ∈ d) :
    ∀ s : MemStore,
      p ∈ (d.foldl (fun st pd => st.integrate_peer_inserts pd.1 pd.2) s).peerSet := by
  induction d with
  | nil => cases hmem
  | cons pd rest ih =>
    intro s
    rw [List.foldl_cons]
    rcases List.mem_cons.mp hmem with h1 | h2
    · cases h1
      refine phaseB_peerSet_mono rest _ ?_
      rw [ipi_peerSet]
      exact Finset.mem_insert_self p _
    · exact ih h2 _

theorem phaseB_peers_untouched (d : Diff) {p : Nat} (hq : ∀ pd ∈ d, pd.1 ≠ p) :
    ∀ s : MemStore,
      (d.foldl (fun st pd => st.integrate_peer_inserts pd.1 pd.2) s).peers p =
        s.peers p := by
  induction d with
  | nil => intro s; rfl
  | cons pd rest ih =>
    intro s
    rw [List.foldl_cons, ih fun x hx => hq x (List.mem_cons_of_mem pd hx),
      ipi_peers_other s pd.1 pd.2
        (fun hc => hq pd (List.mem_cons_self pd rest) hc.symm)]

theorem phaseB_pres_ge (d : Diff) {k h a : Nat} :
    ∀ s : MemStore, entry_ge (s.entries k) h a →
      entry_ge ((d.foldl (fun st pd => st.integrate_peer_inserts pd.1 pd.2)
        s).entries k) h a := by
  induction d with
  | nil => intro s hge; exact hge
  | cons pd rest ih =>
    intro s hge
    rw [List.foldl_cons]
    exact ih _ (ipi_pres_ge s pd.1 pd.2 hge)

theorem phaseB_ge (d : Diff) (p : Nat) (dp : DiffPeerState) (ins : Insert)
    (hmem : (p, dp) ∈ d) (hins : ins ∈ dp.inserts) :
    ∀ s : MemStore,
      entry_ge ((d.foldl (fun st pd => st.integrate_peer_inserts pd.1 pd.2)
        s).entries ins.key) ins.hlc p := by
  induction d with
  | nil => cases hmem
  | cons pd rest ih =>
    intro s
    rw [List.foldl_cons]
    rcases List.mem_cons.mp hmem with h1 | h2
    · cases h1
      exact phaseB_pres_ge rest _ (ipi_ge_mem s p dp hins)
    · exact ih h2 _

theorem phaseB_clean (d : Diff) (hnd : (d.map Prod.fst).Nodup) (p : Nat)
    (dp : DiffPeerState) (hmem : (p, dp) ∈ d) (hwf : block_wf dp) :
    ∀ s : MemStore, (p ∈ s.peerSet → peer_clean s p dp) →
      peer_clean (d.foldl (fun st pd => st.integrate_peer_inserts pd.1 pd.2) s)
        p dp := by
  induction d with
  | nil => cases hmem
  | cons pd rest ih =>
    intro s hcl
    rw [List.map_cons, List.nodup_cons] at hnd
    rw [List.foldl_cons]
    rcases List.mem_cons.mp hmem with h1 | h2
    · cases h1
      refine peer_clean_congr (phaseB_peers_untouched rest ?_ _)
        (ipi_clean s p dp hwf hcl)
      intro x hx he
      have hxm : x.1 ∈ rest.map Prod.fst := fst_mem_of_mem hx
      rw [he] at hxm
      exact hnd.1 hxm
    · have hpq : p ≠ pd.1 := by
        intro he
        exact hnd.1 (he ▸ List.mem_map_of_mem Prod.fst h2)
      refine ih hnd.2 h2 _ ?_
      intro hp
      rw [ipi_peerSet, Finset.mem_insert] at hp
      refine peer_clean_congr (ipi_peers_other s pd.1 pd.2 hpq) ?_
      exact hcl (hp.resolve_left hpq)

theorem phaseB_bookmark_ge (d : Diff) (hnd : (d.map Prod.fst).Nodup) (p : Nat)
    (dp : DiffPeerState) (hmem : (p, dp) ∈ d) :
    ∀ s : MemStore,
      dp.bookmark ≤
        ((d.foldl (fun st pd => st.integrate_peer_inserts pd.1 pd.2) s).peers
          p).bookmark := by
  induction d with
  | nil => cases hmem
  | cons pd rest ih =>
    intro s
    rw [List.map_cons, List.nodup_cons] at hnd
    rw [List.foldl_cons]
    rcases List.mem_cons.mp hmem with h1 | h2
    · cases h1
      refine Eq.mpr ?_ (ipi_bookmark_ge s p dp)
      have hun : ∀ x ∈ rest, x.1 ≠ p := by
        intro x hx he
        have hxm : x.1 ∈ rest.map Prod.fst := fst_mem_of_mem hx
        rw [he] at hxm
        exact hnd.1 hxm
      rw [phaseB_peers_untouched rest hun _]
    · exact ih hnd.2 h2 _

/-- Integrating a block whose peer is already clean of its deletes is a
no-op in the delete phase. -/
theorem apd_id (T : MemStore) (p : Nat) (dp : DiffPeerState)
    (hcl : peer_clean T p dp) : T.apply_peer_deletes (p, dp) = T := by
  unfold MemStore.apply_peer_deletes
  split
  · dsimp only
    have hfold : (asc_list dp.deletes).foldl del_step ((T.peers p).keys, T.entries)
        = ((T.peers p).keys, T.entries) :=
      del_fold_id _ _ fun h hh => (hcl h (mem_asc_list.mp hh)).1
    rw [hfold]
    have hidx : (T.peers p).index \ dp.deletes = (T.peers p).index := by
      ext h
      rw [Finset.mem_sdiff]
      exact ⟨And.left, fun hi => ⟨hi, fun hd => (hcl h hd).2 hi⟩⟩
    rw [hidx]
    dsimp only
    have hps : PeerState.mk (T.peers p).index (T.peers p).keys
        (T.peers p).bookmark = T.peers p := rfl
    rw [hps, Function.update_eq_self]
  · rfl

/-- Integrating a block whose inserts all lose and whose bookmark is not
ahead is a no-op in the insert phase. -/
theorem ipi_id (T : MemStore) (p : Nat) (dp : DiffPeerState)
    (hp : p ∈ T.peerSet)
    (hge : ∀ ins ∈ dp.inserts, entry_ge (T.entries ins.key) ins.hlc p)
    (hbk : dp.bookmark ≤ (T.peers p).bookmark) :
    T.integrate_peer_inserts p dp = T := by
  unfold MemStore.integrate_peer_inserts
  rw [if_pos hp]
  dsimp only
  have hfold : dp.inserts.foldl (fun (st : MemStore) ins => st.lww_step p ins) T
      = T := by
    refine foldl_id_of _ T dp.inserts fun ins hins => ?_
    obtain ⟨e, he, hnw⟩ := hge ins hins
    unfold MemStore.lww_step
    rw [he]
    dsimp only
    rw [if_neg hnw]
  rw [hfold]
  have hmax : max (T.peers p).bookmark dp.bookmark = (T.peers p).bookmark :=
    max_eq_left hbk
  rw [hmax]
  have hps : PeerState.mk (T.peers p).index (T.peers p).keys
      (T.peers p).bookmark = T.peers p := rfl
  rw [hps, Function.update_eq_self]

/-- C6 (amended): integrating a well-formed diff — block peer ids
duplicate-free and no block listing an HLC both as insert and as delete, as
every diff `build_diff` produces — twice yields exactly the same replica
state as integrating it once. -/
theorem c6_integration_idempotent (s : MemStore) (d : Diff)
    (hwf : diff_wf d) :
    (s.integrate_diff d).integrate_diff d = s.integrate_diff d := by
  obtain ⟨hnd, hbl⟩ := hwf
  have hclean : ∀ pd ∈ d, peer_clean (s.integrate_diff d) pd.1 pd.2 := by
    intro pd hpd
    refine phaseB_clean d hnd pd.1 pd.2 hpd (hbl pd hpd) _ ?_
    intro hp
    rw [phaseA_peerSet] at hp
    exact phaseA_clean d hnd pd.1 pd.2 s hpd hp
  have hge : ∀ pd ∈ d, ∀ ins ∈ pd.2.inserts,
      entry_ge ((s.integrate_diff d).entries ins.key) ins.hlc pd.1 :=
    fun pd hpd ins hins => phaseB_ge d pd.1 pd.2 ins hpd hins _
  have hmemPS : ∀ pd ∈ d, pd.1 ∈ (s.integrate_diff d).peerSet :=
    fun pd hpd => phaseB_peerSet_mem d pd.1 pd.2 hpd _
  have hbk : ∀ pd ∈ d,
      pd.2.bookmark ≤ ((s.integrate_diff d).peers pd.1).bookmark :=
    fun pd hpd => phaseB_bookmark_ge d hnd pd.1 pd.2 hpd _
  show (s.integrate_diff d).integrate_diff d = s.integrate_diff d
  conv_lhs => rw [MemStore.integrate_diff]
  have hA : d.foldl MemStore.apply_peer_deletes (s.integrate_diff d) =
      s.integrate_diff d :=
    foldl_id_of _ _ _ fun pd hpd => apd_id _ pd.1 pd.2 (hclean pd hpd)
  rw [hA]
  exact foldl_id_of _ _ _ fun pd hpd =>
    ipi_id _ pd.1 pd.2 (hmemPS pd hpd) (hge pd hpd) (hbk pd hpd)

/-- Witness for C6: a fresh replica and a one-block diff. -/
theorem c6_integration_idempotent_witness :
    diff_wf [(2, { inserts := [{ key := 1, value := 20, hlc := 2 }],
                   deletes := ∅, bookmark := 2 })] ∧
    ((MemStore.new 0).integrate_diff
        [(2, { inserts := [{ key := 1, value := 20, hlc := 2 }],
               deletes := ∅, bookmark := 2 })]).integrate_diff
        [(2, { inserts := [{ key := 1, value := 20, hlc := 2 }],
               deletes := ∅, bookmark := 2 })] =
      (MemStore.new 0).integrate_diff
        [(2, { inserts := [{ key := 1, value := 20, hlc := 2 }],
               deletes := ∅, bookmark := 2 })] :=
  ⟨by decide, c6_integration_idempotent (MemStore.new 0) _ (by decide)⟩

/-- `next` is strictly increasing for a sampled (aligned, in-range) physical
time when the increment cannot wrap. -/
theorem next_inner_gt {b pt : Nat} (hal : pt % M16 = 0) (hlt : pt < U64)
    (hov : Hlc.l b < pt ∨ b + 1 < U64) : b < Hlc.next_inner b pt := by
  by_cases hc : Hlc.l b < pt
  · have hmax : max (Hlc.l b) pt = pt := max_eq_right (le_of_lt hc)
    have hne : pt ≠ Hlc.l b := (ne_of_lt hc).symm
    unfold Hlc.next_inner
    rw [hmax, if_neg hne, Hlc.new_of_aligned hal hlt]
    exact Hlc.lt_of_l_lt_aligned hal hc
  · have hb1 : b + 1 < U64 := hov.resolve_left hc
    have hmax : max (Hlc.l b) pt = Hlc.l b := max_eq_left (le_of_not_lt hc)
    unfold Hlc.next_inner
    rw [hmax, if_pos rfl, Nat.mod_eq_of_lt hb1]
    omega

theorem insert_local_id (s : MemStore) (k v pt : Nat) :
    ((s.insert k v pt).1).local_id = s.local_id := by
  unfold MemStore.insert MemStore.insert_with_hlc
  rcases hE : s.entries k with _ | old <;> dsimp only <;> rw [hE]

theorem insert_peerSet (s : MemStore) (k v pt : Nat) :
    ((s.insert k v pt).1).peerSet = s.peerSet := by
  unfold MemStore.insert MemStore.insert_with_hlc
  rcases hE : s.entries k with _ | old <;> dsimp only <;> rw [hE]

theorem insert_entries (s : MemStore) (ℓ k v pt : Nat) (hlid : s.local_id = ℓ) :
    ((s.insert k v pt).1).entries = Function.update s.entries k
      (some { value := v, author := ℓ,
              hlc := Hlc.next_inner (s.peers ℓ).bookmark pt }) := by
  unfold MemStore.insert MemStore.insert_with_hlc
  rw [hlid]
  rcases hE : s.entries k with _ | old <;> dsimp only <;> rw [hE]

theorem insert_peers_other (s : MemStore) (ℓ k v pt : Nat)
    (hlid : s.local_id = ℓ)
    (hauth : ∀ e, s.entries k = some e → e.author = ℓ) {q : Nat} (hq : q ≠ ℓ) :
    ((s.insert k v pt).1).peers q = s.peers q := by
  unfold MemStore.insert MemStore.insert_with_hlc
  rw [hlid]
  rcases hE : s.entries k with _ | old <;> dsimp only <;> rw [hE]
  · exact Function.update_noteq hq _ _
  · dsimp only
    rw [hauth old hE, Function.update_noteq hq, Function.update_noteq hq]

theorem insert_bookmark (s : MemStore) (ℓ k v pt : Nat)
    (hlid : s.local_id = ℓ)
    (hauth : ∀ e, s.entries k = some e → e.author = ℓ) :
    (((s.insert k v pt).1).peers ℓ).bookmark =
      Hlc.next_inner (s.peers ℓ).bookmark pt := by
  unfold MemStore.insert MemStore.insert_with_hlc
  rw [hlid]
  rcases hE : s.entries k with _ | old <;> dsimp only <;> rw [hE]
  · dsimp only
    rw [Function.update_same]
  · dsimp only
    rw [hauth old hE, Function.update_same, Function.update_same]

theorem insert_keys (s : MemStore) (ℓ k v pt : Nat)
    (hlid : s.local_id = ℓ)
    (hauth : ∀ e, s.entries k = some e → e.author = ℓ) :
    (((s.insert k v pt).1).peers ℓ).keys =
      Function.update (s.peers ℓ).keys
        (Hlc.next_inner (s.peers ℓ).bookmark pt) (some k) := by
  unfold MemStore.insert MemStore.insert_with_hlc
  rw [hlid]
  rcases hE : s.entries k with _ | old <;> dsimp only <;> rw [hE]
  · dsimp only
    rw [Function.update_same]
  · dsimp only
    rw [hauth old hE, Function.update_same, Function.update_same, if_pos rfl]

theorem insert_index_none (s : MemStore) (ℓ k v pt : Nat)
    (hlid : s.local_id = ℓ) (hE : s.entries k = none) :
    (((s.insert k v pt).1).peers ℓ).index =
      Insert.insert (Hlc.next_inner (s.peers ℓ).bookmark pt)
        (s.peers ℓ).index := by
  unfold MemStore.insert MemStore.insert_with_hlc
  rw [hlid]
  dsimp only
  rw [hE]
  dsimp only
  rw [Function.update_same]

theorem insert_index_some (s : MemStore) (ℓ k v pt : Nat)
    (hlid : s.local_id = ℓ) (old : Entry) (hE : s.entries k = some old)
    (hoa : old.author = ℓ) :
    (((s.insert k v pt).1).peers ℓ).index =
      (Insert.insert (Hlc.next_inner (s.peers ℓ).bookmark pt)
        (s.peers ℓ).index).erase old.hlc := by
  unfold MemStore.insert MemStore.insert_with_hlc
  rw [hlid]
  dsimp only
  rw [hE]
  dsimp only
  rw [hoa, Function.update_same]
  dsimp only
  rw [Function.update_same]

theorem remove_local_id (s : MemStore) (k : Nat) :
    ((s.remove k).1).local_id = s.local_id := by
  unfold MemStore.remove
  rcases hE : s.entries k with _ | old <;> dsimp only

theorem remove_peerSet (s : MemStore) (k : Nat) :
    ((s.remove k).1).peerSet = s.peerSet := by
  unfold MemStore.remove
  rcases hE : s.entries k with _ | old <;> dsimp only

theorem remove_entries (s : MemStore) (k : Nat) :
    ((s.remove k).1).entries = Function.update s.entries k none := by
  unfold MemStore.remove
  rcases hE : s.entries k with _ | old <;> dsimp only
  · funext q
    by_cases hk : q = k
    · subst hk
      rw [Function.update_same]
      exact hE
    · rw [Function.update_noteq hk]

theorem remove_peers_other (s : MemStore) (ℓ k : Nat)
    (hauth : ∀ e, s.entries k = some e → e.author = ℓ) {q : Nat} (hq : q ≠ ℓ) :
    ((s.remove k).1).peers q = s.peers q := by
  unfold MemStore.remove
  rcases hE : s.entries k with _ | old <;> dsimp only
  rw [hauth old hE]
  exact Function.update_noteq hq _ _

theorem remove_bookmark (s : MemStore) (ℓ k : Nat)
    (hauth : ∀ e, s.entries k = some e → e.author = ℓ) :
    (((s.remove k).1).peers ℓ).bookmark = (s.peers ℓ).bookmark := by
  unfold MemStore.remove
  rcases hE : s.entries k with _ | old <;> dsimp only
  rw [hauth old hE, Function.update_same]

theorem remove_keys_some (s : MemStore) (ℓ k : Nat) (old : Entry)
    (hE : s.entries k = some old) (hoa : old.author = ℓ) :
    (((s.remove k).1).peers ℓ).keys =
      Function.update (s.peers ℓ).keys old.hlc none := by
  unfold MemStore.remove
  dsimp only
  rw [hE]
  dsimp only
  rw [hoa, Function.update_same]

theorem remove_index_some (s : MemStore) (ℓ k : Nat) (old : Entry)
    (hE : s.entries k = some old) (hoa : old.author = ℓ) :
    (((s.remove k).1).peers ℓ).index = (s.peers ℓ).index.erase old.hlc := by
  unfold MemStore.remove
  dsimp only
  rw [hE]
  dsimp only
  rw [hoa, Function.update_same]

theorem LocalInv_new (ℓ : Nat) : LocalInv ℓ (MemStore.new ℓ) where
  lid := rfl
  pset := rfl
  offp := fun _ _ => rfl
  auth := fun _ _ he => Option.noConfusion he
  eidx := fun _ _ he => Option.noConfusion he
  ekey := fun _ _ he => Option.noConfusion he
  idxe := fun h hh => absurd hh (Finset.not_mem_empty h)
  inj := fun _ _ _ _ h1 _ _ => Option.noConfusion h1
  ebk := fun _ _ he => Option.noConfusion he

/-- An entry's HLC never exceeds the bookmark; in particular every indexed
HLC is bounded by the bookmark. -/
theorem LocalInv.hbk {ℓ : Nat} {s : MemStore} (inv : LocalInv ℓ s) {h : Nat}
    (hh : h ∈ (s.peers ℓ).index) : h ≤ (s.peers ℓ).bookmark := by
  obtain ⟨k, e, -, he, hhlc⟩ := inv.idxe h hh
  exact hhlc ▸ inv.ebk k e he

theorem LocalInv_insert (ℓ k v pt : Nat) {s : MemStore} (inv : LocalInv ℓ s)
    (hal : pt % M16 = 0) (hlt : pt < U64)
    (hov : Hlc.l (s.peers ℓ).bookmark < pt ∨ (s.peers ℓ).bookmark + 1 < U64) :
    LocalInv ℓ ((s.insert k v pt).1) := by
  have hauth : ∀ e, s.entries k = some e → e.author = ℓ :=
    fun e he => inv.auth k e he
  have hgt : (s.peers ℓ).bookmark < Hlc.next_inner (s.peers ℓ).bookmark pt :=
    next_inner_gt hal hlt hov
  have hent := insert_entries s ℓ k v pt inv.lid
  have hbm := insert_bookmark s ℓ k v pt inv.lid hauth
  have hkeys := insert_keys s ℓ k v pt inv.lid hauth
  refine ⟨?_, ?_, ?_, ?_, ?_, ?_, ?_, ?_, ?_⟩
  · rw [insert_local_id]; exact inv.lid
  · rw [insert_peerSet]; exact inv.pset
  · intro q hq
    rw [insert_peers_other s ℓ k v pt inv.lid hauth hq]
    exact inv.offp q hq
  · intro k2 e he
    rw [hent] at he
    by_cases hk : k2 = k
    · subst hk
      rw [Function.update_same] at he
      cases he
      rfl
    · rw [Function.update_noteq hk] at he
      exact inv.auth k2 e he
  · intro k2 e he
    rw [hent] at he
    rcases hE : s.entries k with _ | old
    · rw [insert_index_none s ℓ k v pt inv.lid hE, Finset.mem_insert]
      by_cases hk : k2 = k
      · subst hk
        rw [Function.update_same] at he
        cases he
        exact Or.inl rfl
      · rw [Function.update_noteq hk] at he
        exact Or.inr (inv.eidx k2 e he)
    · rw [insert_index_some s ℓ k v pt inv.lid old hE (inv.auth k old hE),
        Finset.mem_erase, Finset.mem_insert]
      by_cases hk : k2 = k
      · subst hk
        rw [Function.update_same] at he
        cases he
        refine ⟨?_, Or.inl rfl⟩
        have hob := inv.ebk k2 old hE
        dsimp only
        omega
      · rw [Function.update_noteq hk] at he
        refine ⟨?_, Or.inr (inv.eidx k2 e he)⟩
        intro hcon
        exact hk (inv.inj k2 k e old he hE hcon)
  · intro k2 e he
    rw [hent] at he
    rw [hkeys]
    by_cases hk : k2 = k
    · subst hk
      rw [Function.update_same] at he
      cases he
      rw [Function.update_same]
    · rw [Function.update_noteq hk] at he
      have hle := inv.ebk k2 e he
      rw [Function.update_noteq (by omega)]
      exact inv.ekey k2 e he
  · intro h2 hh2
    rw [hkeys]
    rcases hE : s.entries k with _ | old
    · rw [insert_index_none s ℓ k v pt inv.lid hE, Finset.mem_insert] at hh2
      rcases hh2 with h1 | h1
      · subst h1
        refine ⟨k, Entry.mk v ℓ (Hlc.next_inner (s.peers ℓ).bookmark pt),
          ?_, ?_, rfl⟩
        · rw [Function.update_same]
        · rw [hent, Function.update_same]
      · obtain ⟨k2, e2, hk2, he2, hhlc⟩ := inv.idxe h2 h1
        have hle : h2 ≤ (s.peers ℓ).bookmark := inv.hbk h1
        have hk2k : k2 ≠ k := by
          intro hcon
          rw [hcon, hE] at he2
          exact Option.noConfusion he2
        refine ⟨k2, e2, ?_, ?_, hhlc⟩
        · rw [Function.update_noteq (by omega)]
          exact hk2
        · rw [hent, Function.update_noteq hk2k]
          exact he2
    · rw [insert_index_some s ℓ k v pt inv.lid old hE (inv.auth k old hE),
        Finset.mem_erase, Finset.mem_insert] at hh2
      obtain ⟨hne, hh2⟩ := hh2
      rcases hh2 with h1 | h1
      · subst h1
        refine ⟨k, Entry.mk v ℓ (Hlc.next_inner (s.peers ℓ).bookmark pt),
          ?_, ?_, rfl⟩
        · rw [Function.update_same]
        · rw [hent, Function.update_same]
      · obtain ⟨k2, e2, hk2, he2, hhlc⟩ := inv.idxe h2 h1
        have hle : h2 ≤ (s.peers ℓ).bookmark := inv.hbk h1
        have hk2k : k2 ≠ k := by
          intro hcon
          rw [hcon, hE] at he2
          cases he2
          exact hne hhlc.symm
        refine ⟨k2, e2, ?_, ?_, hhlc⟩
        · rw [Function.update_noteq (by omega)]
          exact hk2
        · rw [hent, Function.update_noteq hk2k]
          exact he2
  · intro k1 k2 e1 e2 h1 h2 hhlc
    rw [hent] at h1 h2
    by_cases hk1 : k1 = k <;> by_cases hk2 : k2 = k
    · rw [hk1, hk2]
    · subst hk1
      rw [Function.update_same] at h1
      rw [Function.update_noteq hk2] at h2
      cases h1
      have := inv.ebk k2 e2 h2
      dsimp only at hhlc
      omega
    · subst hk2
      rw [Function.update_same] at h2
      rw [Function.update_noteq hk1] at h1
      cases h2
      have := inv.ebk k1 e1 h1
      dsimp only at hhlc
      omega
    · rw [Function.update_noteq hk1] at h1
      rw [Function.update_noteq hk2] at h2
      exact inv.inj k1 k2 e1 e2 h1 h2 hhlc
  · intro k2 e he
    rw [hent] at he
    rw [hbm]
    by_cases hk : k2 = k
    · subst hk
      rw [Function.update_same] at he
      cases he
      exact le_refl _
    · rw [Function.update_noteq hk] at he
      exact le_trans (inv.ebk k2 e he) (le_of_lt hgt)

theorem remove_of_none (s : MemStore) (k : Nat) (hE : s.entries k = none) :
    (s.remove k).1 = s := by
  unfold MemStore.remove
  dsimp only
  rw [hE]

theorem LocalInv_remove (ℓ k : Nat) {s : MemStore} (inv : LocalInv ℓ s) :
    LocalInv ℓ ((s.remove k).1) := by
  rcases hE : s.entries k with _ | old
  · rw [remove_of_none s k hE]
    exact inv
  · have hoa : old.author = ℓ := inv.auth k old hE
    have hauth : ∀ e, s.entries k = some e → e.author = ℓ :=
      fun e he => inv.auth k e he
    have hent := remove_entries s k
    have hkeys := remove_keys_some s ℓ k old hE hoa
    have hidx := remove_index_some s ℓ k old hE hoa
    have hbm := remove_bookmark s ℓ k hauth
    refine ⟨?_, ?_, ?_, ?_, ?_, ?_, ?_, ?_, ?_⟩
    · rw [remove_local_id]; exact inv.lid
    · rw [remove_peerSet]; exact inv.pset
    · intro q hq
      rw [remove_peers_other s ℓ k hauth hq]
      exact inv.offp q hq
    · intro k2 e he
      rw [hent] at he
      by_cases hk : k2 = k
      · subst hk
        rw [Function.update_same] at he
        exact Option.noConfusion he
      · rw [Function.update_noteq hk] at he
        exact inv.auth k2 e he
    · intro k2 e he
      rw [hent] at he
      by_cases hk : k2 = k
      · subst hk
        rw [Function.update_same] at he
        exact Option.noConfusion he
      · rw [Function.update_noteq hk] at he
        rw [hidx, Finset.mem_erase]
        refine ⟨?_, inv.eidx k2 e he⟩
        intro hcon
        exact hk (inv.inj k2 k e old he hE hcon)
    · intro k2 e he
      rw [hent] at he
      by_cases hk : k2 = k
      · subst hk
        rw [Function.update_same] at he
        exact Option.noConfusion he
      · rw [Function.update_noteq hk] at he
        rw [hkeys, Function.update_noteq ?_]
        · exact inv.ekey k2 e he
        · intro hcon
          exact hk (inv.inj k2 k e old he hE hcon)
    · intro h2 hh2
      rw [hidx, Finset.mem_erase] at hh2
      obtain ⟨hne, hh2⟩ := hh2
      obtain ⟨k2, e2, hk2, he2, hhlc⟩ := inv.idxe h2 hh2
      have hk2k : k2 ≠ k := by
        intro hcon
        rw [hcon, hE] at he2
        cases he2
        exact hne hhlc.symm
      refine ⟨k2, e2, ?_, ?_, hhlc⟩
      · rw [hkeys, Function.update_noteq (hhlc ▸ hne)]
        exact hk2
      · rw [hent, Function.update_noteq hk2k]
        exact he2
    · intro k1 k2 e1 e2 h1 h2 hhlc
      rw [hent] at h1 h2
      by_cases hk1 : k1 = k
      · subst hk1
        rw [Function.update_same] at h1
        exact Option.noConfusion h1
      · by_cases hk2 : k2 = k
        · subst hk2
          rw [Function.update_same] at h2
          exact Option.noConfusion h2
        · rw [Function.update_noteq hk1] at h1
          rw [Function.update_noteq hk2] at h2
          exact inv.inj k1 k2 e1 e2 h1 h2 hhlc
    · intro k2 e he
      rw [hent] at he
      rw [hbm]
      by_cases hk : k2 = k
      · subst hk
        rw [Function.update_same] at he
        exact Option.noConfusion he
      · rw [Function.update_noteq hk] at he
        exact inv.ebk k2 e he

/-- The local invariant holds along any valid run of local operations. -/
theorem LocalInv_apply_locals (ℓ : Nat) (ops : List LocalOp) :
    ∀ s : MemStore, LocalInv ℓ s →
      local_run_okb (s.peers ℓ).bookmark ops = true →
      LocalInv ℓ (s.apply_locals ops) := by
  induction ops with
  | nil => intro s inv _; exact inv
  | cons op rest ih =>
    intro s inv hok
    match op with
    | .ins k v pt =>
      simp only [local_run_okb, Bool.and_eq_true, Bool.or_eq_true,
        decide_eq_true_eq] at hok
      obtain ⟨⟨⟨hal, hlt⟩, hov⟩, hrest⟩ := hok
      have inv2 := LocalInv_insert ℓ k v pt inv hal hlt hov
      have hbm := insert_bookmark s ℓ k v pt inv.lid
        (fun e he => inv.auth k e he)
      refine ih ((s.insert k v pt).1) inv2 ?_
      rw [hbm]
      exact hrest
    | .del k =>
      simp only [local_run_okb] at hok
      have inv2 := LocalInv_remove ℓ k inv
      have hbm := remove_bookmark s ℓ k (fun e he => inv.auth k e he)
      refine ih ((s.remove k).1) inv2 ?_
      rw [hbm]
      exact hok

theorem asc_list_empty : asc_list (∅ : Finset Nat) = [] := by decide

theorem key_mem_of_mem {l : List Insert} {x : Insert} (hx : x ∈ l) :
    x.key ∈ l.map Insert.key :=
  List.mem_map.mpr ⟨x, hx, rfl⟩

theorem mem_materialize {s : MemStore} {ps : PeerState} {X : Finset Nat}
    {ins : Insert} :
    ins ∈ s.materialize ps X ↔
      ∃ h ∈ X, ins = { key := (ps.keys h).getD 0,
                       value := (s.get ((ps.keys h).getD 0)).getD 0,
                       hlc := h } := by
  unfold MemStore.materialize
  rw [List.mem_map]
  constructor
  · rintro ⟨h, hh, rfl⟩
    exact ⟨h, mem_asc_list.mp hh, rfl⟩
  · rintro ⟨h, hh, rfl⟩
    exact ⟨h, mem_asc_list.mpr hh, rfl⟩

/-- Every materialized insert carries the HLC it was materialized from. -/
theorem mat_hlc_mem {s : MemStore} {ps : PeerState} {X : Finset Nat}
    {ins : Insert} (hins : ins ∈ s.materialize ps X) : ins.hlc ∈ X := by
  rw [mem_materialize] at hins
  obtain ⟨h, hh, rfl⟩ := hins
  exact hh

/-- Under the local-only invariant, materializing the full local index
produces inserts with pairwise distinct keys. -/
theorem mat_keys_nodup {ℓ : Nat} {s0 : MemStore} (inv : LocalInv ℓ s0)
    (sV : MemStore) :
    ((sV.materialize (s0.peers ℓ) (s0.peers ℓ).index).map Insert.key).Nodup := by
  unfold MemStore.materialize
  rw [List.map_map]
  refine List.Nodup.map_on ?_ (asc_list_nodup _)
  intro h1 hh1 h2 hh2 heq
  obtain ⟨k1, e1, hk1, he1, hhe1⟩ := inv.idxe h1 (mem_asc_list.mp hh1)
  obtain ⟨k2, e2, hk2, he2, hhe2⟩ := inv.idxe h2 (mem_asc_list.mp hh2)
  simp only [Function.comp_apply] at heq
  rw [hk1, hk2] at heq
  simp only [Option.getD_some] at heq
  rw [← heq] at he2
  rw [he1] at he2
  cases he2
  rw [← hhe1, ← hhe2]

/-- Under the local-only invariant, every live entry contributes its
canonical insert to the materialization of the full local index. -/
theorem mat_mem_of_entry {ℓ : Nat} {s0 : MemStore} (inv : LocalInv ℓ s0)
    (sV : MemStore) {k : Nat} {e : Entry} (hE : s0.entries k = some e) :
    Insert.mk k ((sV.get k).getD 0) e.hlc ∈
      sV.materialize (s0.peers ℓ) (s0.peers ℓ).index := by
  rw [mem_materialize]
  refine ⟨e.hlc, inv.eidx k e hE, ?_⟩
  rw [inv.ekey k e hE]
  rfl

/-- Under the local-only invariant, every materialized insert's key holds a
live entry whose HLC is the insert's. -/
theorem mat_key_char {ℓ : Nat} {s0 : MemStore} (inv : LocalInv ℓ s0)
    (sV : MemStore) {ins : Insert}
    (hins : ins ∈ sV.materialize (s0.peers ℓ) (s0.peers ℓ).index) :
    ∃ e, s0.entries ins.key = some e ∧ e.hlc = ins.hlc := by
  rw [mem_materialize] at hins
  obtain ⟨h, hh, rfl⟩ := hins
  obtain ⟨k2, e2, hk2, he2, hhe2⟩ := inv.idxe h hh
  dsimp only
  rw [hk2]
  simp only [Option.getD_some]
  exact ⟨e2, he2, hhe2⟩

/-- No materialized insert touches a key with no live entry. -/
theorem mat_nokey {ℓ : Nat} {s0 : MemStore} (inv : LocalInv ℓ s0)
    (sV : MemStore) {k : Nat} (hE : s0.entries k = none) :
    ∀ ins ∈ sV.materialize (s0.peers ℓ) (s0.peers ℓ).index, ins.key ≠ k := by
  intro ins hins hk
  obtain ⟨e, he, -⟩ := mat_key_char inv sV hins
  rw [hk, hE] at he
  cases he

/-- One LWW step's effect at the incoming insert's own key is exactly the
pointwise merge. -/
theorem lww_step_entries_self (st : MemStore) (p : Nat) (ins : Insert) :
    (st.lww_step p ins).entries ins.key =
      lww_merge (st.entries ins.key) p ins := by
  unfold MemStore.lww_step lww_merge
  rcases hE : st.entries ins.key with _ | old
  · dsimp only
    exact lww_install_entries_self st p ins
  · dsimp only
    by_cases hw : wins old ins.hlc p
    · rw [if_pos hw, if_pos hw]
      exact lww_install_entries_self st p ins
    · rw [if_neg hw, if_neg hw]
      exact hE

/-- Folding a key-duplicate-free insert list changes the entry at a listed
insert's key into the merge of exactly that insert. -/
theorem lfold_entries_single (p : Nat) (l : List Insert) {ins : Insert}
    (hnd : (l.map Insert.key).Nodup) (hins : ins ∈ l) :
    ∀ st : MemStore,
      (l.foldl (fun st ins => st.lww_step p ins) st).entries ins.key =
        lww_merge (st.entries ins.key) p ins := by
  induction l with
  | nil => cases hins
  | cons a rest ih =>
    intro st
    rw [List.map_cons, List.nodup_cons] at hnd
    rw [List.foldl_cons]
    rcases List.mem_cons.mp hins with h1 | h2
    · rw [h1]
      have hk : ∀ i2 ∈ rest, a.key ≠ i2.key := by
        intro i2 hi2 he
        have hm : i2.key ∈ rest.map Insert.key := key_mem_of_mem hi2
        rw [← he] at hm
        exact hnd.1 hm
      rw [lfold_entries_other p rest hk, lww_step_entries_self]
    · have hka : ins.key ≠ a.key := by
        intro he
        have hm : ins.key ∈ rest.map Insert.key := key_mem_of_mem h2
        rw [he] at hm
        exact hnd.1 hm
      rw [ih hnd.2 h2, lww_step_entries_other st p a hka]

/-- `integrate_peer_inserts` at a listed insert's key (block inserts keyed
duplicate-free) is the pointwise merge of that insert. -/
theorem ipi_entries_single (s : MemStore) (p : Nat) (dp : DiffPeerState)
    {ins : Insert} (hnd : (dp.inserts.map Insert.key).Nodup)
    (hins : ins ∈ dp.inserts) :
    (s.integrate_peer_inserts p dp).entries ins.key =
      lww_merge (s.entries ins.key) p ins := by
  rw [ipi_entries, lfold_entries_single p dp.inserts hnd hins]
  by_cases hp : p ∈ s.peerSet
  · rw [if_pos hp]
  · rw [if_neg hp]

/-- `integrate_peer_inserts` leaves keys untouched that none of the block's
inserts mention. -/
theorem ipi_entries_nokey (s : MemStore) (p : Nat) (dp : DiffPeerState)
    {k : Nat} (hk : ∀ ins ∈ dp.inserts, ins.key ≠ k) :
    (s.integrate_peer_inserts p dp).entries k = s.entries k := by
  rw [ipi_entries,
    lfold_entries_other p dp.inserts fun ins hins => (hk ins hins).symm]
  by_cases hp : p ∈ s.peerSet
  · rw [if_pos hp]
  · rw [if_neg hp]

/-- The insert phase leaves keys untouched that no block's inserts
mention. -/
theorem phaseB_entries_nokey (d : Diff) {k : Nat}
    (hk : ∀ pd ∈ d, ∀ ins ∈ pd.2.inserts, ins.key ≠ k) :
    ∀ s : MemStore,
      (d.foldl (fun st pd => st.integrate_peer_inserts pd.1 pd.2) s).entries k =
        s.entries k := by
  induction d with
  | nil => intro s; rfl
  | cons pd rest ih =>
    intro s
    rw [List.foldl_cons,
      ih fun x hx => hk x (List.mem_cons_of_mem pd hx)]
    exact ipi_entries_nokey s pd.1 pd.2 (hk pd (List.mem_cons_self pd rest))

/-- The insert phase's effect at a key touched by exactly one block insert
is the pointwise merge of that insert. -/
theorem phaseB_entries_single (d : Diff) (p : Nat) (dp : DiffPeerState)
    {ins : Insert} (hnd : (d.map Prod.fst).Nodup)
    (hmem : (p, dp) ∈ d) (hknd : (dp.inserts.map Insert.key).Nodup)
    (hins : ins ∈ dp.inserts)
    (hother : ∀ pd ∈ d, pd.1 ≠ p → ∀ i2 ∈ pd.2.inserts, i2.key ≠ ins.key) :
    ∀ s : MemStore,
      (d.foldl (fun st pd => st.integrate_peer_inserts pd.1 pd.2) s).entries
          ins.key =
        lww_merge (s.entries ins.key) p ins := by
  induction d with
  | nil => cases hmem
  | cons pd rest ih =>
    intro s
    rw [List.map_cons, List.nodup_cons] at hnd
    rw [List.foldl_cons]
    rcases List.mem_cons.mp hmem with h1 | h2
    · cases h1
      have hrest : ∀ x ∈ rest, ∀ i2 ∈ x.2.inserts, i2.key ≠ ins.key := by
        intro x hx
        refine hother x (List.mem_cons_of_mem _ hx) ?_
        intro he
        have hm : x.1 ∈ rest.map Prod.fst := fst_mem_of_mem hx
        rw [he] at hm
        exact hnd.1 hm
      rw [phaseB_entries_nokey rest hrest]
      rw [ipi_entries_single s p dp hknd hins]
    · have hpq : pd.1 ≠ p := by
        intro he
        have hm : (p, dp).1 ∈ rest.map Prod.fst := fst_mem_of_mem h2
        rw [← he] at hm
        exact hnd.1 hm
      have hother2 : ∀ x ∈ rest, x.1 ≠ p →
          ∀ i2 ∈ x.2.inserts, i2.key ≠ ins.key :=
        fun x hx => hother x (List.mem_cons_of_mem pd hx)
      rw [ih hnd.2 h2 hother2]
      rw [ipi_entries_nokey s pd.1 pd.2
        (hother pd (List.mem_cons_self pd rest) hpq)]

/-- An HLC indexed after `lww_install` is the installed insert's or was
already indexed. -/
theorem lww_install_index_mem {st : MemStore} {p : Nat} {ins : Insert}
    {h : Nat} (hmem : h ∈ ((st.lww_install p ins).peers p).index) :
    h = ins.hlc ∨ h ∈ (st.peers p).index := by
  unfold MemStore.lww_install at hmem
  simp only [Function.update_same] at hmem
  exact Finset.mem_insert.mp hmem

/-- An HLC indexed after one LWW step is the incoming insert's or was
already indexed. -/
theorem lww_step_index_mem {st : MemStore} {p : Nat} {ins : Insert} {h : Nat}
    (hmem : h ∈ ((st.lww_step p ins).peers p).index) :
    h = ins.hlc ∨ h ∈ (st.peers p).index := by
  unfold MemStore.lww_step at hmem
  split at hmem
  · exact lww_install_index_mem hmem
  · split at hmem
    · exact lww_install_index_mem hmem
    · exact Or.inr hmem

theorem lfold_index_mem (p : Nat) (l : List Insert) :
    ∀ st : MemStore, ∀ h : Nat,
      h ∈ ((l.foldl (fun st ins => st.lww_step p ins) st).peers p).index →
      h ∈ (st.peers p).index ∨ ∃ ins ∈ l, ins.hlc = h := by
  induction l with
  | nil => intro st h hm; exact Or.inl hm
  | cons a rest ih =>
    intro st h hm
    rw [List.foldl_cons] at hm
    rcases ih (st.lww_step p a) h hm with h1 | ⟨ins, hi, he⟩
    · rcases lww_step_index_mem h1 with h2 | h3
      · exact Or.inr ⟨a, List.mem_cons_self a rest, h2.symm⟩
      · exact Or.inl h3
    · exact Or.inr ⟨ins, List.mem_cons_of_mem a hi, he⟩

theorem ipi_index_eq (s : MemStore) (p : Nat) (dp : DiffPeerState) :
    ((s.integrate_peer_inserts p dp).peers p).index =
      ((dp.inserts.foldl (fun st ins => st.lww_step p ins)
        (if p ∈ s.peerSet then s
         else { s with peerSet := Insert.insert p s.peerSet,
                       peers := Function.update s.peers p default })).peers
        p).index := by
  unfold MemStore.integrate_peer_inserts
  dsimp only
  rw [Function.update_same]

/-- An HLC indexed for the block's peer after `integrate_peer_inserts` was
already indexed or is some block insert's. -/
theorem ipi_index_mem (s : MemStore) (p : Nat) (dp : DiffPeerState) {h : Nat}
    (hm : h ∈ ((s.integrate_peer_inserts p dp).peers p).index) :
    h ∈ (s.peers p).index ∨ ∃ ins ∈ dp.inserts, ins.hlc = h := by
  rw [ipi_index_eq] at hm
  rcases lfold_index_mem p dp.inserts _ h hm with h1 | h2
  · by_cases hp : p ∈ s.peerSet
    · rw [if_pos hp] at h1
      exact Or.inl h1
    · rw [if_neg hp] at h1
      dsimp only at h1
      rw [Function.update_same] at h1
      exact absurd h1 (Finset.not_mem_empty h)
  · exact Or.inr h2

/-- An HLC indexed for peer `p` after the insert phase was already indexed
or comes from one of `p`'s block inserts. -/
theorem phaseB_index_mem (d : Diff) (p : Nat) :
    ∀ s : MemStore, ∀ h : Nat,
      h ∈ ((d.foldl (fun st pd => st.integrate_peer_inserts pd.1 pd.2)
        s).peers p).index →
      h ∈ (s.peers p).index ∨
        ∃ pd ∈ d, pd.1 = p ∧ ∃ ins ∈ pd.2.inserts, ins.hlc = h := by
  induction d with
  | nil => intro s h hm; exact Or.inl hm
  | cons pd rest ih =>
    intro s h hm
    rw [List.foldl_cons] at hm
    rcases ih _ h hm with h1 | ⟨x, hx, hxp, ins, hi, he⟩
    · by_cases hpq : pd.1 = p
      · rw [← hpq] at h1
        rcases ipi_index_mem s pd.1 pd.2 h1 with h2 | ⟨ins, hi, he⟩
        · rw [hpq] at h2
          exact Or.inl h2
        · exact Or.inr ⟨pd, List.mem_cons_self pd rest, hpq, ins, hi, he⟩
      · rw [ipi_peers_other s pd.1 pd.2 (fun hc => hpq hc.symm)] at h1
        exact Or.inl h1
    · exact Or.inr ⟨x, List.mem_cons_of_mem pd hx, hxp, ins, hi, he⟩

theorem phaseB_local_id (d : Diff) :
    ∀ s : MemStore,
      (d.foldl (fun st pd => st.integrate_peer_inserts pd.1 pd.2)
        s).local_id = s.local_id := by
  induction d with
  | nil => intro s; rfl
  | cons pd rest ih =>
    intro s
    rw [List.foldl_cons, ih, ipi_local_id]

/-- Every peer known after the insert phase was known before or names one
of the diff's blocks. -/
theorem phaseB_peerSet_sub (d : Diff) :
    ∀ s : MemStore, ∀ q : Nat,
      q ∈ (d.foldl (fun st pd => st.integrate_peer_inserts pd.1 pd.2)
        s).peerSet →
      q ∈ s.peerSet ∨ ∃ pd ∈ d, pd.1 = q := by
  induction d with
  | nil => intro s q hq; exact Or.inl hq
  | cons pd rest ih =>
    intro s q hq
    rw [List.foldl_cons] at hq
    rcases ih _ q hq with h1 | ⟨x, hx, hxq⟩
    · rw [ipi_peerSet, Finset.mem_insert] at h1
      rcases h1 with h2 | h3
      · exact Or.inr ⟨pd, List.mem_cons_self pd rest, h2.symm⟩
      · exact Or.inl h3
    · exact Or.inr ⟨x, List.mem_cons_of_mem pd hx, hxq⟩

/-- A block with an empty delete set is a no-op in the delete phase. -/
theorem apd_empty_id (T : MemStore) (pd : Nat × DiffPeerState)
    (hdel : pd.2.deletes = ∅) : T.apply_peer_deletes pd = T := by
  unfold MemStore.apply_peer_deletes
  split
  · dsimp only
    rw [hdel, asc_list_empty, List.foldl_nil]
    dsimp only
    rw [Finset.sdiff_empty]
    have hps : PeerState.mk (T.peers pd.1).index (T.peers pd.1).keys
        (T.peers pd.1).bookmark = T.peers pd.1 := rfl
    rw [hps, Function.update_eq_self]
  · rfl

/-- A diff all of whose blocks have empty delete sets makes the whole
delete phase a no-op. -/
theorem phaseA_empty_id (d : Diff) (hdel : ∀ pd ∈ d, pd.2.deletes = ∅)
    (s : MemStore) :
    d.foldl MemStore.apply_peer_deletes s = s :=
  foldl_id_of _ s d fun pd hpd => apd_empty_id _ pd (hdel pd hpd)

/-- The peer ids of the blocks `build_diff` emits are duplicate-free. -/
theorem build_diff_nodup_fst (s : MemStore) (request : DiffRequest) :
    ((s.build_diff request).map Prod.fst).Nodup := by
  unfold MemStore.build_diff
  refine List.Nodup.sublist ((List.filter_sublist _).map Prod.fst) ?_
  rw [List.map_map]
  have hco : (Prod.fst ∘ fun p => (p, s.build_block request p)) = id := rfl
  rw [hco, List.map_id]
  exact asc_list_nodup s.peerSet

/-- C1: convergence — for every pair of replicas built by arbitrary valid
sequences of local inserts and removes, after both directions of the sync
protocol have run sequentially (A integrates B's diff against A's request,
then B integrates the updated A's diff against B's request, as the crate's
examples do), the two replicas' entries agree as key-to-value mappings. -/
theorem c1_convergence (idA idB : Nat) (hid : idA ≠ idB)
    (opsA opsB : List LocalOp)
    (hokA : local_run_okb 0 opsA = true) (hokB : local_run_okb 0 opsB = true) :
    ∀ k : Nat,
      ((sync_once ((MemStore.new idA).apply_locals opsA)
          ((MemStore.new idB).apply_locals opsB)).entries k).map Entry.value =
      ((sync_once ((MemStore.new idB).apply_locals opsB)
          (sync_once ((MemStore.new idA).apply_locals opsA)
            ((MemStore.new idB).apply_locals opsB))).entries k).map
        Entry.value := by
  intro k
  set A0 := (MemStore.new idA).apply_locals opsA with hA0def
  set B0 := (MemStore.new idB).apply_locals opsB with hB0def
  have invA : LocalInv idA A0 :=
    LocalInv_apply_locals idA opsA (MemStore.new idA) (LocalInv_new idA) hokA
  have invB : LocalInv idB B0 :=
    LocalInv_apply_locals idB opsB (MemStore.new idB) (LocalInv_new idB) hokB
  -- the three request lookups that matter
  have hidBA : idB ∉ ({idA} : Finset Nat) := by
    rw [Finset.mem_singleton]
    exact fun he => hid he.symm
  have hidAB : idA ∉ ({idB} : Finset Nat) := by
    rw [Finset.mem_singleton]
    exact hid
  have hreqAB : A0.request_diff idB = none := by
    unfold MemStore.request_diff
    rw [invA.pset, if_neg hidBA]
  have hreqBA : B0.request_diff idA = none := by
    unfold MemStore.request_diff
    rw [invB.pset, if_neg hidAB]
  have hreqBB : B0.request_diff idB =
      some ⟨(B0.peers idB).index, (B0.peers idB).bookmark⟩ := by
    unfold MemStore.request_diff
    rw [invB.pset, if_pos (Finset.mem_singleton_self idB)]
  -- the first diff consists of B's full-state block alone
  set d1 := B0.build_diff A0.request_diff with hd1def
  have hblockB : B0.build_block A0.request_diff idB =
      ⟨B0.materialize (B0.peers idB) (B0.peers idB).index, ∅,
        (B0.peers idB).bookmark⟩ := by
    unfold MemStore.build_block
    dsimp only
    rw [hreqAB]
  have hd1mem : ∀ pd ∈ d1,
      pd = (idB, B0.build_block A0.request_diff idB) := by
    rintro ⟨p, dp⟩ hpd
    obtain ⟨hp, hbl, -⟩ := (build_diff_mem B0 A0.request_diff p dp).mp hpd
    rw [invB.pset, Finset.mem_singleton] at hp
    subst hp
    rw [hbl]
  have hd1in : (idB, B0.build_block A0.request_diff idB) ∈ d1 := by
    refine (build_diff_mem B0 A0.request_diff idB _).mpr ⟨?_, rfl, Or.inr ?_⟩
    · rw [invB.pset]
      exact Finset.mem_singleton_self idB
    · rw [hblockB]
  have hd1nd : (d1.map Prod.fst).Nodup := build_diff_nodup_fst B0 _
  have hd1del : ∀ pd ∈ d1, pd.2.deletes = ∅ := by
    intro pd hpd
    rw [hd1mem pd hpd, hblockB]
  -- the synced state A1, with its delete phase a no-op
  set A1 := sync_once A0 B0 with hA1def
  have hA1 : A1 =
      d1.foldl (fun st pd => st.integrate_peer_inserts pd.1 pd.2) A0 := by
    rw [hA1def]
    unfold sync_once MemStore.integrate_diff
    dsimp only
    rw [← hd1def, phaseA_empty_id d1 hd1del A0]
  -- A1's entry at k is the LWW merge of B0's canonical insert at k
  have hkeysndB : ((B0.materialize (B0.peers idB) (B0.peers idB).index).map
      Insert.key).Nodup := mat_keys_nodup invB B0
  have hA1k : A1.entries k =
      match B0.entries k with
      | none => A0.entries k
      | some eB => lww_merge (A0.entries k) idB (Insert.mk k eB.value eB.hlc)
      := by
    rcases hEB : B0.entries k with _ | eB
    · dsimp only
      rw [hA1]
      refine phaseB_entries_nokey d1 ?_ A0
      intro pd hpd ins hins
      rw [hd1mem pd hpd, hblockB] at hins
      exact mat_nokey invB B0 hEB ins hins
    · dsimp only
      rw [hA1]
      have hmemB : Insert.mk k ((B0.get k).getD 0) eB.hlc ∈
          B0.materialize (B0.peers idB) (B0.peers idB).index :=
        mat_mem_of_entry invB B0 hEB
      have hval : (B0.get k).getD 0 = eB.value := by
        unfold MemStore.get
        rw [hEB]
        rfl
      rw [hval] at hmemB
      have hknd2 : ((B0.build_block A0.request_diff idB).inserts.map
          Insert.key).Nodup := by
        rw [hblockB]
        exact hkeysndB
      have hins2 : Insert.mk k eB.value eB.hlc ∈
          (B0.build_block A0.request_diff idB).inserts := by
        rw [hblockB]
        exact hmemB
      have hoth : ∀ pd ∈ d1, pd.1 ≠ idB → ∀ i2 ∈ pd.2.inserts,
          i2.key ≠ (Insert.mk k eB.value eB.hlc).key := by
        intro pd hpd hne
        exfalso
        refine hne ?_
        rw [hd1mem pd hpd]
      exact phaseB_entries_single d1 idB (B0.build_block A0.request_diff idB)
        hd1nd hd1in hknd2 hins2 hoth A0
  -- facts about A1's peer bookkeeping
  have hA1peersA : A1.peers idA = A0.peers idA := by
    rw [hA1]
    refine phaseB_peers_untouched d1 ?_ A0
    intro pd hpd
    rw [hd1mem pd hpd]
    exact fun he => hid he.symm
  have hA1psetmem : ∀ q, q ∈ A1.peerSet → q = idA ∨ q = idB := by
    intro q hq
    rw [hA1] at hq
    rcases phaseB_peerSet_sub d1 A0 q hq with h1 | ⟨pd, hpd, hq2⟩
    · rw [invA.pset, Finset.mem_singleton] at h1
      exact Or.inl h1
    · rw [hd1mem pd hpd] at hq2
      exact Or.inr hq2.symm
  have hA1pA : idA ∈ A1.peerSet := by
    rw [hA1]
    refine Finset.mem_of_subset (phaseB_peerSet_mono d1 A0) ?_
    rw [invA.pset]
    exact Finset.mem_singleton_self idA
  have hA1idxB : ∀ h ∈ (A1.peers idB).index, h ∈ (B0.peers idB).index := by
    intro h hh
    rw [hA1] at hh
    rcases phaseB_index_mem d1 idB A0 h hh with h1 | ⟨pd, hpd, -, ins, hins, he⟩
    · rw [invA.offp idB (fun he => hid he.symm)] at h1
      exact absurd h1 (Finset.not_mem_empty h)
    · rw [hd1mem pd hpd, hblockB] at hins
      rw [← he]
      exact mat_hlc_mem hins
  -- the second diff: A's full-state block, plus at most an empty idB block
  set d2 := A1.build_diff B0.request_diff with hd2def
  have hblockA2 : A1.build_block B0.request_diff idA =
      ⟨A1.materialize (A0.peers idA) (A0.peers idA).index, ∅,
        (A0.peers idA).bookmark⟩ := by
    unfold MemStore.build_block
    dsimp only
    rw [hreqBA, hA1peersA]
  have hsdiff : (A1.peers idB).index \ (B0.peers idB).index = ∅ := by
    rw [Finset.sdiff_eq_empty_iff_subset]
    intro h hh
    exact hA1idxB h hh
  have hblockB2 : A1.build_block B0.request_diff idB =
      ⟨[], ((B0.peers idB).index \ (A1.peers idB).index).filter
          (fun h => h < (A1.peers idB).bookmark), (A1.peers idB).bookmark⟩ := by
    unfold MemStore.build_block
    dsimp only
    rw [hreqBB]
    dsimp only
    rw [hsdiff, Finset.filter_empty]
    unfold MemStore.materialize
    rw [asc_list_empty, List.map_nil]
  have hd2mem : ∀ pd ∈ d2,
      pd = (idA, A1.build_block B0.request_diff idA) ∨
      pd = (idB, A1.build_block B0.request_diff idB) := by
    rintro ⟨p, dp⟩ hpd
    obtain ⟨hp, hbl, -⟩ := (build_diff_mem A1 B0.request_diff p dp).mp hpd
    rcases hA1psetmem p hp with h1 | h1
    · subst h1
      left
      rw [hbl]
    · subst h1
      right
      rw [hbl]
  have hd2del : ∀ pd ∈ d2, pd.2.deletes = ∅ := by
    rintro ⟨p, dp⟩ hpd
    obtain ⟨hp, hbl, hcond⟩ := (build_diff_mem A1 B0.request_diff p dp).mp hpd
    rcases hA1psetmem p hp with h1 | h1
    · subst h1
      rw [hbl, hblockA2]
    · subst h1
      rcases hcond with hne | hdel
      · exfalso
        rw [hbl, hblockB2] at hne
        exact hne rfl
      · exact hdel
  have hd2nd : (d2.map Prod.fst).Nodup := build_diff_nodup_fst A1 _
  have hd2Ain : (idA, A1.build_block B0.request_diff idA) ∈ d2 := by
    refine (build_diff_mem A1 B0.request_diff idA _).mpr
      ⟨hA1pA, rfl, Or.inr ?_⟩
    rw [hblockA2]
  -- the back-synced state B1, with its delete phase a no-op
  have hB1 : sync_once B0 A1 =
      d2.foldl (fun st pd => st.integrate_peer_inserts pd.1 pd.2) B0 := by
    unfold sync_once MemStore.integrate_diff
    dsimp only
    rw [← hd2def, phaseA_empty_id d2 hd2del B0]
  -- B1's entry at k is the LWW merge of A1's canonical insert at k
  have hB1k : (sync_once B0 A1).entries k =
      match A0.entries k with
      | none => B0.entries k
      | some eA => lww_merge (B0.entries k) idA
          (Insert.mk k ((A1.get k).getD 0) eA.hlc)
      := by
    rcases hEA : A0.entries k with _ | eA
    · dsimp only
      rw [hB1]
      refine phaseB_entries_nokey d2 ?_ B0
      intro pd hpd ins hins
      rcases hd2mem pd hpd with h1 | h1
      · rw [h1, hblockA2] at hins
        exact mat_nokey invA A1 hEA ins hins
      · rw [h1, hblockB2] at hins
        exact absurd hins (List.not_mem_nil ins)
    · dsimp only
      rw [hB1]
      have hmemA : Insert.mk k ((A1.get k).getD 0) eA.hlc ∈
          A1.materialize (A0.peers idA) (A0.peers idA).index :=
        mat_mem_of_entry invA A1 hEA
      have hknd2 : ((A1.build_block B0.request_diff idA).inserts.map
          Insert.key).Nodup := by
        rw [hblockA2]
        exact mat_keys_nodup invA A1
      have hins2 : Insert.mk k ((A1.get k).getD 0) eA.hlc ∈
          (A1.build_block B0.request_diff idA).inserts := by
        rw [hblockA2]
        exact hmemA
      have hoth : ∀ pd ∈ d2, pd.1 ≠ idA → ∀ i2 ∈ pd.2.inserts,
          i2.key ≠ (Insert.mk k ((A1.get k).getD 0) eA.hlc).key := by
        intro pd hpd hne i2 hi2
        rcases hd2mem pd hpd with h1 | h1
        · exfalso
          refine hne ?_
          rw [h1]
        · rw [h1, hblockB2] at hi2
          exact absurd hi2 (List.not_mem_nil i2)
      exact phaseB_entries_single d2 idA (A1.build_block B0.request_diff idA)
        hd2nd hd2Ain hknd2 hins2 hoth B0
  -- the four-way pointwise comparison
  rw [hA1k, hB1k]
  rcases hEA : A0.entries k with _ | eA <;>
    rcases hEB : B0.entries k with _ | eB
  · rfl
  · dsimp only
    simp only [lww_merge, Option.map_some']
  · dsimp only
    rw [hEB] at hA1k
    dsimp only at hA1k
    rw [hEA] at hA1k
    have hval : (A1.get k).getD 0 = eA.value := by
      unfold MemStore.get
      rw [hA1k]
      rfl
    simp only [lww_merge, Option.map_some']
    rw [hval]
  · dsimp only
    rw [hEB] at hA1k
    dsimp only at hA1k
    rw [hEA] at hA1k
    simp only [lww_merge] at hA1k
    have h1 : eA.author = idA := invA.auth k eA hEA
    have h2 : eB.author = idB := invB.auth k eB hEB
    simp only [lww_merge]
    by_cases hw : wins eA eB.hlc idB
    · have hnw : ¬ wins eB eA.hlc idA := by
        simp only [wins] at hw ⊢
        rw [h1] at hw
        rw [h2]
        omega
      rw [if_pos hw, if_neg hnw]
      rfl
    · have hw2 : wins eB eA.hlc idA := by
        simp only [wins] at hw ⊢
        rw [h1] at hw
        rw [h2]
        omega
      rw [if_neg hw] at hA1k
      have hval : (A1.get k).getD 0 = eA.value := by
        unfold MemStore.get
        rw [hA1k]
        rfl
      rw [if_neg hw, if_pos hw2, hval]
      rfl

theorem c1_convergence_witness :
    ((sync_once ((MemStore.new 0).apply_locals [LocalOp.ins 1 10 0])
        ((MemStore.new 1).apply_locals [])).entries 1).map Entry.value =
    ((sync_once ((MemStore.new 1).apply_locals [])
        (sync_once ((MemStore.new 0).apply_locals [LocalOp.ins 1 10 0])
          ((MemStore.new 1).apply_locals []))).entries 1).map Entry.value :=
  c1_convergence 0 1 (by decide) [LocalOp.ins 1 10 0] [] (by decide)
    (by decide) 1

end Cubby
